import Mathlib

/-!
go-message-queue: write-ahead log and partition queue.

A shallow embedding of `internal/wal/wal.go` and `internal/queue.go`.

Modelling conventions.

* A file is the sequence of its bytes.  A `WAL` value carries the content of the
  file at `w.path` and whether `w.file` is an open handle.
* Every system call on the write path (`Write`, `Sync`, `Close`, `Truncate`,
  `OpenFile`) may fail; its outcome is an explicit argument of the operation
  that performs it.
* Go maps are association lists.  `range` over a map visits the entries in an
  order the runtime chooses, so every loop over a map takes the visiting order
  as an explicit argument; the order is meaningful when it is a permutation of
  the entries of the map.
* `uuid.New().String()` and `time.Now()` are explicit arguments.
* `encoding/json` is a parameter (`Codec`).
-/

namespace MessageQueue

/-- One byte. -/
abbrev Byte := Fin 256

/-- Go `error` values that the modelled code can return. -/
inductive Error where
  | closed          -- os.ErrClosed: the handle was closed before the call
  | io              -- a failed system call
  | unexpectedEOF   -- io.ErrUnexpectedEOF, or io.EOF in the middle of a record
  | marshal         -- json.Marshal failed
  deriving DecidableEq, Repr

namespace wal

/-- The state behind a `*WAL`: the bytes of the file at `w.path`, and whether
`w.file` is an open handle. -/
structure WAL where
  file : List Byte
  isOpen : Bool
  deriving DecidableEq, Repr

/-- Outcome of one `os.File.Write` call: `none` when every byte is written,
`some n` when the call returns an error after writing `n` bytes. -/
abbrev WriteOutcome := Option Nat

/-- `binary.BigEndian.PutUint32(lenBuf, uint32(n))`. -/
def putUint32 (n : Nat) : List Byte :=
  let v := n % 4294967296
  [⟨v / 16777216 % 256, Nat.mod_lt _ (by decide)⟩,
   ⟨v / 65536 % 256, Nat.mod_lt _ (by decide)⟩,
   ⟨v / 256 % 256, Nat.mod_lt _ (by decide)⟩,
   ⟨v % 256, Nat.mod_lt _ (by decide)⟩]

/-- `binary.BigEndian.Uint32(lenBuf)`. -/
def uint32 (b0 b1 b2 b3 : Byte) : Nat :=
  b0.val * 16777216 + b1.val * 65536 + b2.val * 256 + b3.val

/-- `w.file.Write(p)` on a handle opened with `O_APPEND`: the bytes go to the
end of the file.  Returns the new state and the error, if any. -/
def fileWrite (w : WAL) (p : List Byte) (o : WriteOutcome) : WAL × Option Error :=
  if w.isOpen then
    match o with
    | none => ({ w with file := w.file ++ p }, none)
    | some n => ({ w with file := w.file ++ p.take n }, some Error.io)
  else (w, some Error.closed)

/-- `w.file.Sync()`. -/
def fileSync (w : WAL) (ok : Bool) : Option Error :=
  if w.isOpen then (if ok then none else some Error.io) else some Error.closed

/-- `wal.NewWAL(filePath)`: `os.OpenFile` with `O_APPEND|O_CREATE|O_WRONLY`.
`disk` is the content of the file, `none` when it does not exist yet. -/
def NewWAL (disk : Option (List Byte)) (openOk : Bool) : Except Error WAL :=
  if openOk then .ok { file := disk.getD [], isOpen := true } else .error Error.io

/-- Outcomes of the system calls of one `WAL.Write`. -/
structure WriteIO where
  lenW : WriteOutcome
  dataW : WriteOutcome
  sync : Bool
  deriving DecidableEq, Repr

/-- `WAL.Write(p)`. -/
def Write (w : WAL) (p : List Byte) (io : WriteIO) : WAL × Option Error :=
  let lenBuf := putUint32 p.length
  match fileWrite w lenBuf io.lenW with
  | (w1, some err) => (w1, some err)
  | (w1, none) =>
    match fileWrite w1 p io.dataW with
    | (w2, some err) => (w2, some err)
    | (w2, none) => (w2, fileSync w2 io.sync)

/-- Outcomes of the system calls of one `WAL.Rewrite`.  `writes` gives, record
by record, the outcome of the write of the length prefix and of the write of the
payload; records beyond the end of the list are written without error. -/
structure RewriteIO where
  close : Bool
  truncate : Bool
  reopen : Bool
  writes : List (WriteOutcome × WriteOutcome)
  sync : Bool
  deriving DecidableEq, Repr

/-- The `for _, record := range records` loop of `WAL.Rewrite`: a failed write
is logged and the loop goes on with the next record. -/
def rewriteLoop (w : WAL) : List (List Byte) → List (WriteOutcome × WriteOutcome) → WAL
  | [], _ => w
  | record :: rest, outs =>
    let o := outs.headD (none, none)
    match fileWrite w (putUint32 record.length) o.1 with
    | (w1, some _) => rewriteLoop w1 rest outs.tail
    | (w1, none) =>
      match fileWrite w1 record o.2 with
      | (w2, _) => rewriteLoop w2 rest outs.tail

/-- `WAL.Rewrite(records)`. -/
def Rewrite (w : WAL) (records : List (List Byte)) (io : RewriteIO) : WAL × Option Error :=
  -- w.file.Close(): the handle is released even when the call reports an error
  if !w.isOpen then (w, some Error.closed)
  else
    let w0 : WAL := { w with isOpen := false }
    if !io.close then (w0, some Error.io)
    -- os.Truncate(w.path, 0)
    else if !io.truncate then (w0, some Error.io)
    else
      let w1 : WAL := { file := [], isOpen := false }
      -- os.OpenFile(w.path, ...)
      if !io.reopen then (w1, some Error.io)
      else
        let w2 : WAL := { file := [], isOpen := true }
        let w3 := rewriteLoop w2 records io.writes
        (w3, fileSync w3 io.sync)

/-- `WAL.Close()`. -/
def Close (w : WAL) (ok : Bool) : WAL × Option Error :=
  if w.isOpen then ({ w with isOpen := false }, if ok then none else some Error.io)
  else (w, some Error.closed)

/-- Result of the `os.Open(filePath)` at the start of `ReadAll`. -/
inductive OpenResult where
  | opened (content : List Byte)
  | notExist
  | failed
  deriving DecidableEq, Repr

/-- The `for` loop of `ReadAll`, one iteration per unit of fuel.  `rest` is what
is left of the file after the read position. -/
def readLoop : Nat → List Byte → List (List Byte) → Except Error (List (List Byte))
  | 0, _, records => .ok records
  | fuel + 1, rest, records =>
    match rest with
    | [] => .ok records                                  -- io.EOF: break
    | b0 :: b1 :: b2 :: b3 :: tl =>
      let length := uint32 b0 b1 b2 b3
      if tl.length < length then .error Error.unexpectedEOF
      else readLoop fuel (tl.drop length) (records ++ [tl.take length])
    | _ => .error Error.unexpectedEOF                    -- 1 to 3 bytes left

/-- `wal.ReadAll(filePath)`.  Every iteration that does not return consumes at
least four bytes, so `content.length / 4 + 1` iterations always reach the end
(`readLoop_fuel`). -/
def ReadAll : OpenResult → Except Error (List (List Byte))
  | .notExist => .ok []
  | .failed => .error Error.io
  | .opened content => readLoop (content.length / 4 + 1) content []

/-- The bytes of one record on disk: length prefix, then payload. -/
def frame (r : List Byte) : List Byte := putUint32 r.length ++ r

/-- The bytes of a sequence of records on disk. -/
def frames (rs : List (List Byte)) : List Byte := (rs.map frame).flatten

end wal

/-- `time.Time` as a monotonic clock reading in nanoseconds.  Two readings of
the process's monotonic clock are non-negative 64-bit values, so `Time.Sub`
never saturates and is plain subtraction. -/
abbrev Time := Int

/-- `time.Duration` in nanoseconds. -/
abbrev Duration := Int

/-- A Go `map[string]V` as an association list with one entry per key. -/
abbrev GoMap (V : Type) := List (String × V)

namespace GoMap

variable {V : Type}

/-- `m[k]`, with whether the key is present. -/
def get : GoMap V → String → Option V
  | [], _ => none
  | (k', v) :: m, k => if k' = k then some v else get m k

/-- `delete(m, k)`. -/
def delete (m : GoMap V) (k : String) : GoMap V :=
  m.filter (fun e => decide (e.1 ≠ k))

/-- `m[k] = v`. -/
def set (m : GoMap V) (k : String) (v : V) : GoMap V :=
  delete m k ++ [(k, v)]

/-- The keys of the map. -/
def keys (m : GoMap V) : List String := m.map Prod.fst

end GoMap

/-- The `Message` struct. -/
structure Message where
  ID : String
  Body : List Byte
  Timestamp : Time
  deriving DecidableEq, Repr

/-- `encoding/json` at type `Message`: `Marshal` is `json.Marshal(msg)` (`none`
when it returns an error), `Unmarshal` is `json.Unmarshal(record, &msg)` into a
zero `Message` (`none` when it returns an error). -/
structure Codec where
  Marshal : Message → Option (List Byte)
  Unmarshal : List Byte → Option Message

/-- What the queue needs of `encoding/json`: decoding an encoding gives the
message back, except for `Timestamp`, which carries the tag `json:"-"` and is
neither written nor read. -/
def Codec.RoundTrip (c : Codec) : Prop :=
  ∀ m d, c.Marshal m = some d → c.Unmarshal d = some { m with Timestamp := 0 }

/-- The `Metrics` struct. -/
structure Metrics where
  Queues : GoMap Int
  ActiveConn : Int
  deriving DecidableEq, Repr

/-- `NewMetrics()`. -/
def NewMetrics : Metrics := { Queues := [], ActiveConn := 0 }

/-- `Metrics.SetQueueDepth(topic, depth)`. -/
def Metrics.SetQueueDepth (m : Metrics) (topic : String) (depth : Int) : Metrics :=
  { m with Queues := m.Queues.set topic depth }

/-- The `Queue` struct; `metrics` is the state of the sink the queue points to. -/
structure Queue where
  topic : String
  messages : GoMap Message
  pending : List String
  inFlight : GoMap Time
  inFlightTimeout : Duration
  wal : wal.WAL
  metrics : Metrics
  deriving DecidableEq, Repr

/-- The body of the `for _, record := range records` loop of `loadFromWAL`. -/
def loadRecord (c : Codec) (q : Queue) (record : List Byte) : Queue :=
  match c.Unmarshal record with
  | none => q                                            -- logged, skipped
  | some msg =>
    { q with messages := q.messages.set msg.ID msg, pending := q.pending ++ [msg.ID] }

/-- `Queue.loadFromWAL(walPath)`.  The file was opened or created by `NewWAL`
just before, so `os.Open` finds it. -/
def loadFromWAL (c : Codec) (q : Queue) : Except Error Queue :=
  match wal.ReadAll (.opened q.wal.file) with
  | .error err => .error err
  | .ok records => .ok (records.foldl (loadRecord c) q)

/-- `NewQueue(topic, inFlightTimeout, walPath, metrics)`; `disk` is the content
of the file at `walPath`, `none` when there is no such file. -/
def NewQueue (c : Codec) (topic : String) (inFlightTimeout : Duration)
    (disk : Option (List Byte)) (metrics : Metrics) (openOk : Bool) : Except Error Queue :=
  match wal.NewWAL disk openOk with
  | .error err => .error err
  | .ok w =>
    let q : Queue :=
      { topic := topic, messages := [], pending := [], inFlight := [],
        inFlightTimeout := inFlightTimeout, wal := w, metrics := metrics }
    match loadFromWAL c q with
    | .error err => .error err
    | .ok q1 => .ok { q1 with metrics := q1.metrics.SetQueueDepth q1.topic q1.pending.length }

/-- `Queue.Enqueue(body)`; `msgID` is the value of `uuid.New().String()`. -/
def Enqueue (c : Codec) (q : Queue) (body : List Byte) (msgID : String) (io : wal.WriteIO) :
    Queue × Except Error String :=
  let msg : Message := { ID := msgID, Body := body, Timestamp := 0 }
  match c.Marshal msg with
  | none => (q, .error Error.marshal)
  | some data =>
    match wal.Write q.wal data io with
    | (w, some err) => ({ q with wal := w }, .error err)
    | (w, none) =>
      let pending := q.pending ++ [msgID]
      ({ q with
          wal := w
          messages := q.messages.set msgID msg
          pending := pending
          metrics := q.metrics.SetQueueDepth q.topic pending.length },
       .ok msgID)

/-- `Queue.DequeueForProcessing()`; `now` is the value of `time.Now()`. -/
def DequeueForProcessing (q : Queue) (now : Time) : Queue × Option Message :=
  match q.pending with
  | [] => (q, none)
  | msgID :: rest =>
    ({ q with pending := rest, inFlight := q.inFlight.set msgID now }, q.messages.get msgID)

/-- The records `AckMessage` collects in its loop over `q.messages`, visited in
`order`: a message whose encoding fails is logged and left out. -/
def remainingRecords (c : Codec) (order : List (String × Message)) : List (List Byte) :=
  order.filterMap (fun e => c.Marshal e.2)

/-- `Queue.AckMessage(msgID)`; `order` is the sequence of entries that
`range q.messages` yields. -/
def AckMessage (c : Codec) (q : Queue) (msgID : String) (order : List (String × Message))
    (io : wal.RewriteIO) : Queue :=
  let inFlight := q.inFlight.delete msgID
  let messages := q.messages.delete msgID
  let metrics := q.metrics.SetQueueDepth q.topic q.pending.length
  { q with
      inFlight := inFlight
      messages := messages
      metrics := metrics
      wal := (wal.Rewrite q.wal (remainingRecords c order) io).1 }

/-- The body of the `for msgID, ts := range q.inFlight` loop of `RequeueOrphaned`. -/
def requeueEntry (now : Time) (q : Queue) (e : String × Time) : Queue :=
  if now - e.2 > q.inFlightTimeout then
    { q with inFlight := q.inFlight.delete e.1, pending := e.1 :: q.pending }
  else q

/-- `Queue.RequeueOrphaned()`; `now` is the value of `time.Now()` and `order` the
sequence of entries that `range q.inFlight` yields. -/
def RequeueOrphaned (q : Queue) (now : Time) (order : List (String × Time)) : Queue :=
  order.foldl (requeueEntry now) q

/-- `Queue.Close()`. -/
def Queue.Close (q : Queue) (ok : Bool) : Queue × Option Error :=
  ({ q with wal := (wal.Close q.wal ok).1 }, (wal.Close q.wal ok).2)

/-- One call on a queue, with the values the environment supplies to it. -/
inductive Op where
  | enqueue (body : List Byte) (msgID : String) (io : wal.WriteIO)
  | dequeue (now : Time)
  | ack (msgID : String) (order : List (String × Message)) (io : wal.RewriteIO)
  | requeue (now : Time) (order : List (String × Time))
  deriving DecidableEq, Repr

instance instDecidableEqExcept {ε α : Type} [DecidableEq ε] [DecidableEq α] :
    DecidableEq (Except ε α)
  | .ok a, .ok b => if h : a = b then isTrue (by rw [h]) else isFalse (fun h2 => h (by cases h2; rfl))
  | .error a, .error b =>
    if h : a = b then isTrue (by rw [h]) else isFalse (fun h2 => h (by cases h2; rfl))
  | .ok _, .error _ => isFalse (fun h => by cases h)
  | .error _, .ok _ => isFalse (fun h => by cases h)

/-- What a call returns. -/
inductive Out where
  | enqueued (r : Except Error String)
  | dequeued (m : Option Message)
  | done
  deriving DecidableEq, Repr

/-- Performs one call. -/
def step (c : Codec) (q : Queue) : Op → Queue × Out
  | .enqueue body msgID io => ((Enqueue c q body msgID io).1, .enqueued (Enqueue c q body msgID io).2)
  | .dequeue now => ((DequeueForProcessing q now).1, .dequeued (DequeueForProcessing q now).2)
  | .ack msgID order io => (AckMessage c q msgID order io, .done)
  | .requeue now order => (RequeueOrphaned q now order, .done)

/-- The state after a sequence of calls. -/
def run (c : Codec) (q : Queue) : List Op → Queue
  | [] => q
  | op :: ops => run c (step c q op).1 ops

/-- What the calls of a sequence return, in order. -/
def outputs (c : Codec) (q : Queue) : List Op → List Out
  | [] => []
  | op :: ops => (step c q op).2 :: outputs c (step c q op).1 ops

/-- The environment's part in one call: a UUID is an identifier the queue does
not hold, and a `range` over a map yields its entries, each once. -/
def Op.valid (q : Queue) : Op → Prop
  | .enqueue _ msgID _ =>
    q.messages.get msgID = none ∧ msgID ∉ q.pending ∧ q.inFlight.get msgID = none
  | .dequeue _ => True
  | .ack msgID order _ => order.Perm (q.messages.delete msgID)
  | .requeue _ order => order.Perm q.inFlight

/-- Every call of the sequence is `Op.valid` in the state it is made in. -/
def Valid (c : Codec) (q : Queue) : List Op → Prop
  | [] => True
  | op :: ops => op.valid q ∧ Valid c (step c q op).1 ops

/-- A queue opened on a WAL file that does not exist yet. -/
def emptyQueue (topic : String) (inFlightTimeout : Duration) (metrics : Metrics) : Queue :=
  { topic := topic, messages := [], pending := [], inFlight := [],
    inFlightTimeout := inFlightTimeout, wal := { file := [], isOpen := true },
    metrics := metrics.SetQueueDepth topic 0 }


instance Op.decidableValid (q : Queue) : (op : Op) → Decidable (op.valid q)
  | .enqueue _ msgID _ =>
    inferInstanceAs (Decidable
      (q.messages.get msgID = none ∧ msgID ∉ q.pending ∧ q.inFlight.get msgID = none))
  | .dequeue _ => inferInstanceAs (Decidable True)
  | .ack msgID order _ => inferInstanceAs (Decidable (order.Perm (q.messages.delete msgID)))
  | .requeue _ order => inferInstanceAs (Decidable (order.Perm q.inFlight))

instance decidableValid (c : Codec) : (q : Queue) → (ops : List Op) → Decidable (Valid c q ops)
  | _, [] => inferInstanceAs (Decidable True)
  | q, op :: ops =>
    have := decidableValid c (step c q op).1 ops
    inferInstanceAs (Decidable (op.valid q ∧ Valid c (step c q op).1 ops))

/-- The messages that the successful `Enqueue` calls of a sequence create, in
call order. -/
def created (c : Codec) (q : Queue) : List Op → List Message
  | [] => []
  | op :: ops =>
    (match op, (step c q op).2 with
      | .enqueue body msgID _, .enqueued (.ok _) => [{ ID := msgID, Body := body, Timestamp := 0 }]
      | _, _ => []) ++ created c (step c q op).1 ops

/-- The messages that the `DequeueForProcessing` calls return, in call order. -/
def delivered (outs : List Out) : List Message :=
  outs.filterMap (fun o => match o with | .dequeued (some m) => some m | _ => none)

/-- Invariant 1 of the specification. -/
def Invariant1 (q : Queue) : Prop :=
  (∀ k, k ∈ q.messages.keys ↔ (k ∈ q.pending ∨ k ∈ q.inFlight.keys)) ∧
  (∀ k, ¬ (k ∈ q.pending ∧ k ∈ q.inFlight.keys))

/-- A stand-in for `encoding/json` on which concrete runs can be evaluated: one
byte with the length of the id, the id with one byte per character, then the
body.  Encoding fails on ids it cannot represent. -/
def plainCodec : Codec where
  Marshal m :=
    if m.ID.length < 256 ∧ ∀ ch ∈ m.ID.data, ch.toNat < 256 then
      some (Fin.ofNat m.ID.length :: (m.ID.data.map fun ch => Fin.ofNat ch.toNat) ++ m.Body)
    else none
  Unmarshal d :=
    match d with
    | [] => none
    | n :: rest =>
      if n.val ≤ rest.length then
        some { ID := String.mk ((rest.take n.val).map fun b => Char.ofNat b.val),
               Body := rest.drop n.val, Timestamp := 0 }
      else none

/-- Outcomes of a `WAL.Write` in which every system call succeeds. -/
def writeOk : wal.WriteIO := { lenW := none, dataW := none, sync := true }

/-- Outcomes of a `WAL.Rewrite` in which every system call succeeds. -/
def rewriteOk : wal.RewriteIO :=
  { close := true, truncate := true, reopen := true, writes := [], sync := true }

/-- Whether the call is an `Enqueue` or a `DequeueForProcessing`. -/
def Op.isEnqueueOrDequeue : Op → Bool
  | .enqueue _ _ _ => true
  | .dequeue _ => true
  | _ => false

/-- The encoding of `m`, when there is one, fits the 32-bit length prefix of a
WAL record. -/
def Codec.Fits (c : Codec) (m : Message) : Prop :=
  ∀ d, c.Marshal m = some d → d.length < 4294967296

instance Codec.decidableFits (c : Codec) (m : Message) : Decidable (c.Fits m) :=
  match h : c.Marshal m with
  | none => isTrue (fun d hd => by rw [h] at hd; cases hd)
  | some d0 =>
    if hl : d0.length < 4294967296 then
      isTrue (fun d hd => by rw [h] at hd; cases hd; exact hl)
    else isFalse (fun hf => hl (hf d0 h))

/-- The body given to an `Enqueue` is within the per-message cap of the WAL. -/
def Op.fits (c : Codec) : Op → Prop
  | .enqueue body msgID _ => c.Fits { ID := msgID, Body := body, Timestamp := 0 }
  | _ => True

instance Op.decidableFits (c : Codec) : (op : Op) → Decidable (op.fits c)
  | .enqueue body msgID _ =>
    inferInstanceAs (Decidable (c.Fits { ID := msgID, Body := body, Timestamp := 0 }))
  | .dequeue _ => inferInstanceAs (Decidable True)
  | .ack _ _ _ => inferInstanceAs (Decidable True)
  | .requeue _ _ => inferInstanceAs (Decidable True)

/-- The call is not an `Enqueue` that is handed the id `msgID`. -/
def Op.avoids (msgID : String) : Op → Prop
  | .enqueue _ k _ => k ≠ msgID
  | _ => True

instance Op.decidableAvoids (msgID : String) : (op : Op) → Decidable (op.avoids msgID)
  | .enqueue _ k _ => inferInstanceAs (Decidable (k ≠ msgID))
  | .dequeue _ => inferInstanceAs (Decidable True)
  | .ack _ _ _ => inferInstanceAs (Decidable True)
  | .requeue _ _ => inferInstanceAs (Decidable True)

/-- Every index entry is filed under the id of its message. -/
def KeyInv (q : Queue) : Prop := ∀ e ∈ q.messages, e.2.ID = e.1

/-- Every message of the index is within the per-message cap of the WAL. -/
def FitsInv (c : Codec) (q : Queue) : Prop := ∀ e ∈ q.messages, c.Fits e.2

/-- The call succeeds: an `Enqueue` returns its id without error, and the
rewrite of an `AckMessage` returns no error and has no failing write. -/
def Op.succeeds (c : Codec) (q : Queue) : Op → Prop
  | .enqueue body msgID io => (Enqueue c q body msgID io).2 = .ok msgID
  | .ack _ order io =>
    (∀ o ∈ io.writes, o = (none, none)) ∧
    (wal.Rewrite q.wal (remainingRecords c order) io).2 = none
  | _ => True

instance Op.decidableSucceeds (c : Codec) (q : Queue) : (op : Op) → Decidable (op.succeeds c q)
  | .enqueue body msgID io =>
    inferInstanceAs (Decidable ((Enqueue c q body msgID io).2 = .ok msgID))
  | .ack _ order io =>
    inferInstanceAs (Decidable ((∀ o ∈ io.writes, o = (none, none)) ∧
      (wal.Rewrite q.wal (remainingRecords c order) io).2 = none))
  | .dequeue _ => inferInstanceAs (Decidable True)
  | .requeue _ _ => inferInstanceAs (Decidable True)

/-- Every call of the sequence is well-formed (`Op.valid`, `Op.fits`) and
succeeds in the state it is made in. -/
def Successful (c : Codec) (q : Queue) : List Op → Prop
  | [] => True
  | op :: ops =>
    (op.valid q ∧ op.fits c ∧ op.succeeds c q) ∧ Successful c (step c q op).1 ops

instance decidableSuccessful (c : Codec) :
    (q : Queue) → (ops : List Op) → Decidable (Successful c q ops)
  | _, [] => inferInstanceAs (Decidable True)
  | q, op :: ops =>
    have := decidableSuccessful c (step c q op).1 ops
    inferInstanceAs (Decidable
      ((op.valid q ∧ op.fits c ∧ op.succeeds c q) ∧ Successful c (step c q op).1 ops))

/-- The WAL file holds exactly one record for each message of the index, each
the encoding of its message: `L` pairs the messages with their records, in file
order. -/
def Synced (c : Codec) (q : Queue) (L : List (Message × List Byte)) : Prop :=
  q.wal.file = wal.frames (L.map Prod.snd) ∧
  (∀ p ∈ L, c.Marshal p.1 = some p.2 ∧ p.2.length < 4294967296) ∧
  (L.map Prod.fst).Perm (q.messages.map Prod.snd)

/-- The state of a queue whose WAL file mirrors its index. -/
def Recoverable (c : Codec) (q : Queue) : Prop :=
  q.messages.keys.Nodup ∧ KeyInv q ∧ (∀ e ∈ q.messages, e.2.Timestamp = 0) ∧
  ∃ L, Synced c q L

/-- Whether the call is an `Enqueue`. -/
def Op.isEnqueue : Op → Bool
  | .enqueue _ _ _ => true
  | _ => false

/-- Whether the in-flight entry `e` is past the visibility timeout at `now`. -/
def expired (timeout : Duration) (now : Time) (e : String × Time) : Bool :=
  decide (now - e.2 > timeout)

/-- What is left of a file that ends inside a record: one to three bytes of a
length prefix, or a length prefix followed by fewer payload bytes than it
announces. -/
def wal.Truncated (tail : List Byte) : Prop :=
  (0 < tail.length ∧ tail.length < 4) ∨
  ∃ b0 b1 b2 b3 payload, tail = b0 :: b1 :: b2 :: b3 :: payload ∧
    payload.length < wal.uint32 b0 b1 b2 b3

/-- The index is a map (one entry per key) whose messages are filed under their
ids, carry no timestamp, and have an encoding within the per-message cap. -/
def IndexOk (c : Codec) (q : Queue) : Prop :=
  q.messages.keys.Nodup ∧ KeyInv q ∧ (∀ e ∈ q.messages, e.2.Timestamp = 0) ∧
  ∀ e ∈ q.messages, ∃ d, c.Marshal e.2 = some d ∧ d.length < 4294967296

/-- An `AckMessage` targets an id that is in flight, or one the queue does not
know at all. -/
def Op.ackInFlightOrUnknown (q : Queue) : Op → Prop
  | .ack msgID _ _ =>
    msgID ∈ q.inFlight.keys ∨
    (q.messages.get msgID = none ∧ msgID ∉ q.pending ∧ q.inFlight.get msgID = none)
  | _ => True

instance Op.decidableAckInFlightOrUnknown (q : Queue) :
    (op : Op) → Decidable (op.ackInFlightOrUnknown q)
  | .ack msgID _ _ =>
    inferInstanceAs (Decidable (msgID ∈ q.inFlight.keys ∨
      (q.messages.get msgID = none ∧ msgID ∉ q.pending ∧ q.inFlight.get msgID = none)))
  | .enqueue _ _ _ => inferInstanceAs (Decidable True)
  | .dequeue _ => inferInstanceAs (Decidable True)
  | .requeue _ _ => inferInstanceAs (Decidable True)

/-- Every call of the sequence is `Op.valid`, and every `AckMessage` in it is
`Op.ackInFlightOrUnknown`, in the state the call is made in. -/
def WellBehaved (c : Codec) (q : Queue) : List Op → Prop
  | [] => True
  | op :: ops => (op.valid q ∧ op.ackInFlightOrUnknown q) ∧ WellBehaved c (step c q op).1 ops

instance decidableWellBehaved (c : Codec) :
    (q : Queue) → (ops : List Op) → Decidable (WellBehaved c q ops)
  | _, [] => inferInstanceAs (Decidable True)
  | q, op :: ops =>
    have := decidableWellBehaved c (step c q op).1 ops
    inferInstanceAs (Decidable
      ((op.valid q ∧ op.ackInFlightOrUnknown q) ∧ WellBehaved c (step c q op).1 ops))

/-- Invariant 1 together with the absence of duplicates in `pending` and in the
keys of `inFlight`. -/
def Partitioned (q : Queue) : Prop :=
  q.pending.Nodup ∧ q.inFlight.keys.Nodup ∧ Invariant1 q

/-! ## The write-ahead log -/

namespace wal

theorem uint32_putUint32 (n : Nat) (h : n < 4294967296) :
    ∃ b0 b1 b2 b3, putUint32 n = [b0, b1, b2, b3] ∧ uint32 b0 b1 b2 b3 = n := by
  refine ⟨_, _, _, _, rfl, ?_⟩
  simp only [uint32]
  omega

theorem readLoop_fuel (fuel1 : Nat) : ∀ (fuel2 : Nat) (rest : List Byte) (records : List (List Byte)),
    rest.length / 4 < fuel1 → rest.length / 4 < fuel2 →
    readLoop fuel1 rest records = readLoop fuel2 rest records := by
  induction fuel1 with
  | zero => intro _ _ _ h; omega
  | succ f1 ih =>
    intro fuel2 rest records h1 h2
    cases fuel2 with
    | zero => omega
    | succ f2 =>
      match rest with
      | [] => rfl
      | [_] => rfl
      | [_, _] => rfl
      | [_, _, _] => rfl
      | b0 :: b1 :: b2 :: b3 :: tl =>
        simp only [readLoop]
        split
        · rfl
        · apply ih
          · simp only [List.length_cons, List.length_drop] at h1 ⊢; omega
          · simp only [List.length_cons, List.length_drop] at h2 ⊢; omega

theorem readLoop_frame (fuel : Nat) (r rest : List Byte) (records : List (List Byte))
    (h : r.length < 4294967296) :
    readLoop (fuel + 1) (frame r ++ rest) records = readLoop fuel rest (records ++ [r]) := by
  obtain ⟨b0, b1, b2, b3, hp, hu⟩ := uint32_putUint32 r.length h
  simp only [frame, hp, List.cons_append, List.nil_append, readLoop, hu]
  simp

theorem readLoop_frames (rs : List (List Byte)) (h : ∀ r ∈ rs, r.length < 4294967296) :
    ∀ (fuel : Nat) (records : List (List Byte)), rs.length < fuel →
    readLoop fuel (frames rs) records = .ok (records ++ rs) := by
  induction rs with
  | nil =>
    intro fuel records hf
    cases fuel with
    | zero => omega
    | succ f => simp [frames, readLoop]
  | cons r rs ih =>
    intro fuel records hf
    cases fuel with
    | zero => omega
    | succ f =>
      have hr : r.length < 4294967296 := h r (List.mem_cons_self _ _)
      have hdef : frames (r :: rs) = frame r ++ frames rs := by simp [frames]
      rw [hdef, readLoop_frame f r _ records hr,
        ih (fun x hx => h x (List.mem_cons_of_mem _ hx)) f _ (by simpa using hf)]
      simp

theorem length_frames (rs : List (List Byte)) : 4 * rs.length ≤ (frames rs).length := by
  induction rs with
  | nil => simp [frames]
  | cons r rs ih =>
    have hdef : frames (r :: rs) = frame r ++ frames rs := by simp [frames]
    rw [hdef]
    simp only [frame, putUint32, List.length_append, List.length_cons, List.length_nil]
    omega

/-- Reading back a file that holds the frames of `rs` gives `rs`. -/
theorem ReadAll_frames (rs : List (List Byte)) (h : ∀ r ∈ rs, r.length < 4294967296) :
    ReadAll (.opened (frames rs)) = .ok rs := by
  have hl := length_frames rs
  simp only [ReadAll]
  rw [readLoop_frames rs h _ [] (by omega)]
  simp

/-- With no failing write, the loop of `Rewrite` appends the frames of the
records. -/
theorem rewriteLoop_ok (records : List (List Byte)) :
    ∀ (w : WAL) (outs : List (WriteOutcome × WriteOutcome)), w.isOpen = true →
    (∀ o ∈ outs, o = (none, none)) →
    rewriteLoop w records outs = { file := w.file ++ frames records, isOpen := true } := by
  induction records with
  | nil =>
    intro w outs ho _
    cases w
    simp_all [rewriteLoop, frames]
  | cons r rs ih =>
    intro w outs ho hw
    have hhead : outs.headD (none, none) = (none, none) := by
      cases outs with
      | nil => rfl
      | cons o os => simpa using hw o (List.mem_cons_self _ _)
    have htail : ∀ o ∈ outs.tail, o = (none, none) := fun o h => hw o (List.mem_of_mem_tail h)
    have hdef : frames (r :: rs) = frame r ++ frames rs := by simp [frames]
    simp only [rewriteLoop, hhead, fileWrite, ho, if_true]
    rw [ih _ _ rfl htail, hdef]
    simp [frame]

/-- What a `Rewrite` that returns no error and has no failing write leaves in
the file. -/
theorem Rewrite_ok (w : WAL) (records : List (List Byte)) (io : RewriteIO)
    (hw : ∀ o ∈ io.writes, o = (none, none)) (hok : (Rewrite w records io).2 = none) :
    (Rewrite w records io).1 = { file := frames records, isOpen := true } := by
  unfold Rewrite at hok ⊢
  by_cases h0 : w.isOpen = true
  · by_cases h1 : io.close = true
    · by_cases h2 : io.truncate = true
      · by_cases h3 : io.reopen = true
        · simp only [h0, h1, h2, h3, Bool.not_true, Bool.false_eq_true, if_false]
          rw [rewriteLoop_ok records _ _ rfl hw]
          simp
        · simp [h0, h1, h2, h3] at hok
      · simp [h0, h1, h2] at hok
    · simp [h0, h1] at hok
  · simp [h0] at hok

end wal

/-- C1 (WAL round trip): after a `Rewrite(Rs)` that returns no error and in
which no write fails, whatever the file held before, `ReadAll` of the file
returns exactly `Rs`, in order, for records shorter than 2^32 bytes (empty
records and the empty list included). -/
theorem wal_rewrite_readAll (w : wal.WAL) (Rs : List (List Byte)) (io : wal.RewriteIO)
    (hlen : ∀ r ∈ Rs, r.length < 4294967296)
    (hw : ∀ o ∈ io.writes, o = (none, none))
    (hok : (wal.Rewrite w Rs io).2 = none) :
    wal.ReadAll (.opened (wal.Rewrite w Rs io).1.file) = .ok Rs := by
  rw [wal.Rewrite_ok w Rs io hw hok]
  exact wal.ReadAll_frames Rs hlen

theorem wal_rewrite_readAll_witness :
    (∀ r ∈ ([[1, 2], [], [3]] : List (List Byte)), r.length < 4294967296) ∧
    (∀ o ∈ (wal.RewriteIO.mk true true true [] true).writes, o = (none, none)) ∧
    (wal.Rewrite ⟨[9, 9, 9], true⟩ [[1, 2], [], [3]] ⟨true, true, true, [], true⟩).2 = none ∧
    wal.ReadAll (.opened
      (wal.Rewrite ⟨[9, 9, 9], true⟩ [[1, 2], [], [3]] ⟨true, true, true, [], true⟩).1.file)
      = .ok [[1, 2], [], [3]] :=
  ⟨by decide, by decide, by decide,
   wal_rewrite_readAll ⟨[9, 9, 9], true⟩ [[1, 2], [], [3]] ⟨true, true, true, [], true⟩
     (by decide) (by decide) (by decide)⟩

/-! ## Maps -/

namespace GoMap

variable {V : Type}

theorem mem_delete (m : GoMap V) (k : String) (e : String × V) :
    e ∈ delete m k ↔ e ∈ m ∧ e.1 ≠ k := by
  simp [delete]

theorem mem_set (m : GoMap V) (k : String) (v : V) (e : String × V) :
    e ∈ set m k v ↔ (e ∈ m ∧ e.1 ≠ k) ∨ e = (k, v) := by
  simp [set, mem_delete]

theorem get_some_mem (m : GoMap V) (k : String) (v : V) (h : get m k = some v) : (k, v) ∈ m := by
  induction m with
  | nil => simp [get] at h
  | cons e m ih =>
    obtain ⟨k', v'⟩ := e
    simp only [get] at h
    split at h
    · next hk => simp at h; simp [hk, h]
    · exact List.mem_cons_of_mem _ (ih h)

theorem get_eq_none (m : GoMap V) (k : String) : get m k = none ↔ k ∉ keys m := by
  induction m with
  | nil => simp [get, keys]
  | cons e m ih =>
    obtain ⟨k', v'⟩ := e
    simp only [get, keys, List.map_cons, List.mem_cons, not_or] at ih ⊢
    split
    · next hk => simp [hk]
    · next hk => rw [ih]; simp [keys]; exact fun _ => fun h => hk h.symm

theorem get_append (m1 m2 : GoMap V) (k : String) :
    get (m1 ++ m2) k = (get m1 k).orElse (fun _ => get m2 k) := by
  induction m1 with
  | nil => simp [get]
  | cons e m ih =>
    obtain ⟨k', v'⟩ := e
    simp only [List.cons_append, get]
    split <;> simp [ih]

theorem get_delete (m : GoMap V) (k k' : String) :
    get (delete m k) k' = if k' = k then none else get m k' := by
  induction m with
  | nil => simp [delete, get]
  | cons e m ih =>
    obtain ⟨k0, v0⟩ := e
    simp only [delete, List.filter_cons] at ih ⊢
    by_cases h0 : k0 = k
    · subst h0
      simp only [ne_eq, not_true_eq_false, decide_False, Bool.false_eq_true, if_false, ih, get]
      by_cases h1 : k' = k0
      · simp [h1]
      · simp [h1, Ne.symm h1]
    · simp only [ne_eq, h0, not_false_eq_true, decide_True, if_true, get, ih]
      by_cases h1 : k0 = k'
      · subst h1; simp [h0]
      · simp [h1]

theorem get_set (m : GoMap V) (k k' : String) (v : V) :
    get (set m k v) k' = if k' = k then some v else get m k' := by
  simp only [set, get_append, get_delete, get]
  by_cases h : k' = k
  · subst h; simp
  · simp only [h, if_false, Ne.symm h]
    cases get m k' <;> simp

theorem delete_of_get_none (m : GoMap V) (k : String) (h : get m k = none) : delete m k = m := by
  rw [get_eq_none] at h
  simp only [delete, List.filter_eq_self]
  intro e he
  simp only [ne_eq, decide_eq_true_eq]
  intro hk
  exact h (by simp only [keys, List.mem_map]; exact ⟨e, he, hk⟩)

end GoMap

/-! ## The queue: single calls -/

theorem emptyQueue_eq_NewQueue (c : Codec) (topic : String) (timeout : Duration) (metrics : Metrics) :
    NewQueue c topic timeout none metrics true = .ok (emptyQueue topic timeout metrics) := rfl

/-- C2 (invariant 1), evaluated on a late acknowledgement: a message is
enqueued, dispatched at time 0, requeued by the sweep at time 11, and then acked
while its id is back in `pending`.  Every call is well-formed, and in the
resulting state the id is in `pending` but not a key of `messages`, so
invariant 1 fails. -/
theorem invariant1_fails_after_ack_of_pending :
    Valid plainCodec (emptyQueue "t" 10 NewMetrics)
      [.enqueue [1] "a" writeOk, .dequeue 0, .requeue 11 [("a", 0)], .ack "a" [] rewriteOk] ∧
    ¬ Invariant1 (run plainCodec (emptyQueue "t" 10 NewMetrics)
      [.enqueue [1] "a" writeOk, .dequeue 0, .requeue 11 [("a", 0)], .ack "a" [] rewriteOk]) := by
  refine ⟨by decide, fun h => ?_⟩
  have h1 := (h.1 "a").mpr (Or.inl (by decide))
  revert h1
  decide

/-- C9 (Enqueue is atomic on durability failure): when the WAL append inside
`Enqueue` returns an error, `Enqueue` returns that error and `messages`,
`pending`, `inFlight` and the metrics sink are what they were. -/
theorem enqueue_append_failure_keeps_state (c : Codec) (q : Queue) (body : List Byte)
    (msgID : String) (io : wal.WriteIO) (data : List Byte) (err : Error)
    (hdata : c.Marshal { ID := msgID, Body := body, Timestamp := 0 } = some data)
    (hfail : (wal.Write q.wal data io).2 = some err) :
    (Enqueue c q body msgID io).2 = .error err ∧
    (Enqueue c q body msgID io).1.messages = q.messages ∧
    (Enqueue c q body msgID io).1.pending = q.pending ∧
    (Enqueue c q body msgID io).1.inFlight = q.inFlight ∧
    (Enqueue c q body msgID io).1.metrics = q.metrics := by
  unfold Enqueue
  simp only [hdata]
  rcases hw : wal.Write q.wal data io with ⟨w, e⟩
  rw [hw] at hfail
  simp only at hfail
  subst hfail
  simp

theorem enqueue_append_failure_keeps_state_witness :
    plainCodec.Marshal { ID := "a", Body := [1], Timestamp := 0 } = some [1, 97, 1] ∧
    (wal.Write (emptyQueue "t" 10 NewMetrics).wal [1, 97, 1] ⟨none, some 2, true⟩).2
      = some Error.io ∧
    (Enqueue plainCodec (emptyQueue "t" 10 NewMetrics) [1] "a" ⟨none, some 2, true⟩).2
      = .error Error.io ∧
    (Enqueue plainCodec (emptyQueue "t" 10 NewMetrics) [1] "a" ⟨none, some 2, true⟩).1.pending
      = [] :=
  have h := enqueue_append_failure_keeps_state plainCodec (emptyQueue "t" 10 NewMetrics) [1] "a"
    ⟨none, some 2, true⟩ [1, 97, 1] Error.io (by decide) (by decide)
  ⟨by decide, by decide, h.1, h.2.2.1⟩

/-- C10 (stale ids are never served), evaluated on a late acknowledgement: `a`
and `b` are enqueued, `a` is dispatched at time 0, requeued by the sweep at time
11, and then acked while its id is back in `pending`.  The next
`DequeueForProcessing` returns nil although `pending` holds the id of `b`, which
is in the index, and it records an `inFlight` entry for `a`, which the index no
longer has. -/
theorem dequeue_after_ack_of_pending_returns_nil :
    Valid plainCodec (emptyQueue "t" 10 NewMetrics)
      [.enqueue [1] "a" writeOk, .enqueue [2] "b" writeOk, .dequeue 0,
       .requeue 11 [("a", 0)], .ack "a" [("b", ⟨"b", [2], 0⟩)] rewriteOk] ∧
    (DequeueForProcessing (run plainCodec (emptyQueue "t" 10 NewMetrics)
      [.enqueue [1] "a" writeOk, .enqueue [2] "b" writeOk, .dequeue 0,
       .requeue 11 [("a", 0)], .ack "a" [("b", ⟨"b", [2], 0⟩)] rewriteOk]) 12).2 = none ∧
    (run plainCodec (emptyQueue "t" 10 NewMetrics)
      [.enqueue [1] "a" writeOk, .enqueue [2] "b" writeOk, .dequeue 0,
       .requeue 11 [("a", 0)], .ack "a" [("b", ⟨"b", [2], 0⟩)] rewriteOk]).pending = ["a", "b"] ∧
    (run plainCodec (emptyQueue "t" 10 NewMetrics)
      [.enqueue [1] "a" writeOk, .enqueue [2] "b" writeOk, .dequeue 0,
       .requeue 11 [("a", 0)], .ack "a" [("b", ⟨"b", [2], 0⟩)] rewriteOk]).messages.get "b" = some ⟨"b", [2], 0⟩ ∧
    (DequeueForProcessing (run plainCodec (emptyQueue "t" 10 NewMetrics)
      [.enqueue [1] "a" writeOk, .enqueue [2] "b" writeOk, .dequeue 0,
       .requeue 11 [("a", 0)], .ack "a" [("b", ⟨"b", [2], 0⟩)] rewriteOk]) 12).1.inFlight.get "a" = some 12 ∧
    (DequeueForProcessing (run plainCodec (emptyQueue "t" 10 NewMetrics)
      [.enqueue [1] "a" writeOk, .enqueue [2] "b" writeOk, .dequeue 0,
       .requeue 11 [("a", 0)], .ack "a" [("b", ⟨"b", [2], 0⟩)] rewriteOk]) 12).1.messages.get "a" = none := by
  decide

/-- The two ways an `Enqueue` ends. -/
theorem Enqueue_cases (c : Codec) (q : Queue) (body : List Byte) (msgID : String)
    (io : wal.WriteIO) :
    ((∃ err, (Enqueue c q body msgID io).2 = .error err) ∧
      (Enqueue c q body msgID io).1.messages = q.messages ∧
      (Enqueue c q body msgID io).1.pending = q.pending ∧
      (Enqueue c q body msgID io).1.inFlight = q.inFlight ∧
      (Enqueue c q body msgID io).1.inFlightTimeout = q.inFlightTimeout) ∨
    ((Enqueue c q body msgID io).2 = .ok msgID ∧
      (Enqueue c q body msgID io).1.messages
        = q.messages.set msgID { ID := msgID, Body := body, Timestamp := 0 } ∧
      (Enqueue c q body msgID io).1.pending = q.pending ++ [msgID] ∧
      (Enqueue c q body msgID io).1.inFlight = q.inFlight ∧
      (Enqueue c q body msgID io).1.inFlightTimeout = q.inFlightTimeout ∧
      ∃ data, c.Marshal { ID := msgID, Body := body, Timestamp := 0 } = some data ∧
        (wal.Write q.wal data io).2 = none ∧
        (Enqueue c q body msgID io).1.wal = (wal.Write q.wal data io).1) := by
  unfold Enqueue
  cases hm : c.Marshal { ID := msgID, Body := body, Timestamp := 0 } with
  | none => left; simp [hm]
  | some data =>
    rcases hw : wal.Write q.wal data io with ⟨w, e⟩
    cases e with
    | some err => left; simp [hm, hw]
    | none => right; simp [hm, hw]

/-! ## FIFO -/

/-- From a state whose `pending` lists the ids of the messages `pre`, all of
them in the index, the dequeues deliver a prefix of `pre` followed by what is
created, and the rest stays pending. -/
theorem fifo_aux (c : Codec) : ∀ (ops : List Op) (q : Queue) (pre : List Message),
    (∀ op ∈ ops, op.isEnqueueOrDequeue = true) → Valid c q ops →
    q.pending = pre.map Message.ID → (∀ m ∈ pre, q.messages.get m.ID = some m) →
    ∃ n, n ≤ (pre ++ created c q ops).length ∧
      delivered (outputs c q ops) = (pre ++ created c q ops).take n ∧
      (run c q ops).pending = ((pre ++ created c q ops).drop n).map Message.ID ∧
      ∀ m ∈ (pre ++ created c q ops).drop n, (run c q ops).messages.get m.ID = some m := by
  intro ops
  induction ops with
  | nil =>
    intro q pre _ _ hp hm
    exact ⟨0, by simp, by simp [outputs, delivered], by simpa [run, created] using hp,
      by simpa [run, created] using hm⟩
  | cons op ops ih =>
    intro q pre honly hvalid hp hm
    have hrest : ∀ op ∈ ops, op.isEnqueueOrDequeue = true :=
      fun o ho => honly o (List.mem_cons_of_mem _ ho)
    have hop := honly op (List.mem_cons_self _ _)
    obtain ⟨hv, hvs⟩ := hvalid
    cases op with
    | ack _ _ _ => simp [Op.isEnqueueOrDequeue] at hop
    | requeue _ _ => simp [Op.isEnqueueOrDequeue] at hop
    | enqueue body msgID io =>
      rcases Enqueue_cases c q body msgID io with ⟨⟨err, he⟩, h1, h2, _, _⟩ | ⟨he, h1, h2, _, _, _⟩
      · -- the append failed: nothing is created
        obtain ⟨n, hn, hd, hq, hg⟩ := ih (step c q (.enqueue body msgID io)).1 pre hrest hvs
          (by simpa [step, h2] using hp) (by simpa [step, h1] using hm)
        have hc : created c q (.enqueue body msgID io :: ops)
            = created c (step c q (.enqueue body msgID io)).1 ops := by
          simp [created, step, he]
        refine ⟨n, by rw [hc]; exact hn, ?_, ?_, ?_⟩
        · rw [hc, ← hd]; simp [outputs, delivered, step]
        · rw [hc, ← hq]; rfl
        · rw [hc]; exact hg
      · -- a message is created and goes to the end of `pending`
        have hfresh : msgID ∉ q.pending := hv.2.1
        obtain ⟨n, hn, hd, hq, hg⟩ := ih (step c q (.enqueue body msgID io)).1
          (pre ++ [{ ID := msgID, Body := body, Timestamp := 0 }]) hrest hvs
          (by simp [step, h2, hp])
          (by
            intro m hmem
            simp only [step, h1, GoMap.get_set]
            rcases List.mem_append.1 hmem with h | h
            · have hne : m.ID ≠ msgID := by
                intro heq
                apply hfresh
                rw [hp, ← heq]
                exact List.mem_map_of_mem _ h
              simp [hne, hm m h]
            · simp at h; simp [h])
        have hc : created c q (.enqueue body msgID io :: ops)
            = { ID := msgID, Body := body, Timestamp := 0 }
              :: created c (step c q (.enqueue body msgID io)).1 ops := by
          simp [created, step, he]
        have hl : pre ++ created c q (.enqueue body msgID io :: ops)
            = (pre ++ [{ ID := msgID, Body := body, Timestamp := 0 }])
              ++ created c (step c q (.enqueue body msgID io)).1 ops := by
          rw [hc]; simp
        refine ⟨n, by rw [hl]; exact hn, ?_, ?_, ?_⟩
        · rw [hl, ← hd]; simp [outputs, delivered, step]
        · rw [hl, ← hq]; rfl
        · rw [hl]; exact hg
    | dequeue now =>
      have hc : created c q (.dequeue now :: ops)
          = created c (step c q (.dequeue now)).1 ops := by
        simp [created, step]
      cases pre with
      | nil =>
        have hp0 : q.pending = [] := by simpa using hp
        have hs : step c q (.dequeue now) = (q, .dequeued none) := by
          simp [step, DequeueForProcessing, hp0]
        obtain ⟨n, hn, hd, hq, hg⟩ := ih (step c q (.dequeue now)).1 [] hrest hvs
          (by rw [hs]; simpa using hp0) (by simp)
        refine ⟨n, by rw [hc]; exact hn, ?_, ?_, ?_⟩
        · rw [hc, ← hd]; simp [outputs, delivered, hs]
        · rw [hc, ← hq]; rfl
        · rw [hc]; exact hg
      | cons m pre =>
        have hp0 : q.pending = m.ID :: pre.map Message.ID := by simpa using hp
        have hs1 : (step c q (.dequeue now)).1.pending = pre.map Message.ID := by
          simp [step, DequeueForProcessing, hp0]
        have hs2 : (step c q (.dequeue now)).1.messages = q.messages := by
          simp only [step, DequeueForProcessing]; split <;> rfl
        have hs3 : (step c q (.dequeue now)).2 = .dequeued (some m) := by
          simp [step, DequeueForProcessing, hp0, hm m (List.mem_cons_self _ _)]
        obtain ⟨n, hn, hd, hq, hg⟩ := ih (step c q (.dequeue now)).1 pre hrest hvs hs1
          (by intro x hx; rw [hs2]; exact hm x (List.mem_cons_of_mem _ hx))
        refine ⟨n + 1, by rw [hc]; simpa using hn, ?_, ?_, ?_⟩
        · rw [hc]; simp [outputs, delivered, hs3]; exact hd
        · rw [hc]; simpa [run] using hq
        · rw [hc]; simpa [run] using hg

/-- C3 (FIFO within a partition): from an empty queue, over any interleaving
of `Enqueue` and `DequeueForProcessing` calls, the messages that the dequeues
return are, in order, the first messages that the successful enqueues created
(same id, same body), and one more `DequeueForProcessing` returns the next
created message, or nil when every created message has been returned. -/
theorem fifo_dequeue_order (c : Codec) (topic : String) (timeout : Duration) (metrics : Metrics)
    (ops : List Op) (now : Time)
    (honly : ∀ op ∈ ops, op.isEnqueueOrDequeue = true)
    (hvalid : Valid c (emptyQueue topic timeout metrics) ops) :
    delivered (outputs c (emptyQueue topic timeout metrics) ops)
      <+: created c (emptyQueue topic timeout metrics) ops ∧
    (DequeueForProcessing (run c (emptyQueue topic timeout metrics) ops) now).2
      = (created c (emptyQueue topic timeout metrics) ops)[
          (delivered (outputs c (emptyQueue topic timeout metrics) ops)).length]? := by
  obtain ⟨n, hn, hd, hq, hg⟩ := fifo_aux c ops (emptyQueue topic timeout metrics) [] honly hvalid
    rfl (by simp)
  simp only [List.nil_append] at hn hd hq hg
  refine ⟨by rw [hd]; exact List.take_prefix _ _, ?_⟩
  have hlen : (delivered (outputs c (emptyQueue topic timeout metrics) ops)).length = n := by
    rw [hd, List.length_take]; omega
  rw [hlen]
  cases hdrop : (created c (emptyQueue topic timeout metrics) ops).drop n with
  | nil =>
    rw [hdrop] at hq
    have hge : (created c (emptyQueue topic timeout metrics) ops).length ≤ n :=
      List.drop_eq_nil_iff.1 hdrop
    rw [List.getElem?_eq_none hge]
    simp only [List.map_nil] at hq
    simp [DequeueForProcessing, hq]
  | cons m rest =>
    rw [hdrop] at hq hg
    have hget : (created c (emptyQueue topic timeout metrics) ops)[n]? = some m := by
      have := List.getElem?_drop (created c (emptyQueue topic timeout metrics) ops) n 0
      rw [hdrop] at this
      simpa using this.symm
    rw [hget]
    simp only [List.map_cons] at hq
    simp [DequeueForProcessing, hq, hg m (List.mem_cons_self _ _)]

theorem fifo_dequeue_order_witness :
    (∀ op ∈ [Op.enqueue [1] "a" writeOk, Op.enqueue [2] "b" writeOk, Op.dequeue 3],
      op.isEnqueueOrDequeue = true) ∧
    Valid plainCodec (emptyQueue "t" 10 NewMetrics)
      [Op.enqueue [1] "a" writeOk, Op.enqueue [2] "b" writeOk, Op.dequeue 3] ∧
    (DequeueForProcessing (run plainCodec (emptyQueue "t" 10 NewMetrics)
      [Op.enqueue [1] "a" writeOk, Op.enqueue [2] "b" writeOk, Op.dequeue 3]) 4).2
      = (created plainCodec (emptyQueue "t" 10 NewMetrics)
          [Op.enqueue [1] "a" writeOk, Op.enqueue [2] "b" writeOk, Op.dequeue 3])[
          (delivered (outputs plainCodec (emptyQueue "t" 10 NewMetrics)
            [Op.enqueue [1] "a" writeOk, Op.enqueue [2] "b" writeOk, Op.dequeue 3])).length]? :=
  ⟨by decide, by decide,
   (fifo_dequeue_order plainCodec "t" 10 NewMetrics
     [Op.enqueue [1] "a" writeOk, Op.enqueue [2] "b" writeOk, Op.dequeue 3] 4
     (by decide) (by decide)).2⟩

/-! ## Reading the log back -/

namespace wal

theorem putUint32_uint32 (b0 b1 b2 b3 : Byte) :
    putUint32 (uint32 b0 b1 b2 b3) = [b0, b1, b2, b3] := by
  have h0 := b0.isLt
  have h1 := b1.isLt
  have h2 := b2.isLt
  have h3 := b3.isLt
  simp only [putUint32, uint32, List.cons.injEq, Fin.ext_iff, and_true]
  refine ⟨?_, ?_, ?_, ?_⟩ <;> omega

theorem uint32_lt (b0 b1 b2 b3 : Byte) : uint32 b0 b1 b2 b3 < 4294967296 := by
  have h0 := b0.isLt
  have h1 := b1.isLt
  have h2 := b2.isLt
  have h3 := b3.isLt
  simp only [uint32]
  omega

theorem frames_cons (r : List Byte) (rs : List (List Byte)) :
    frames (r :: rs) = frame r ++ frames rs := by
  simp [frames]

theorem frames_append (rs1 rs2 : List (List Byte)) :
    frames (rs1 ++ rs2) = frames rs1 ++ frames rs2 := by
  simp [frames]

/-- A successful read loop has read a sequence of complete records. -/
theorem readLoop_ok_inv (fuel : Nat) : ∀ (rest : List Byte) (records out : List (List Byte)),
    rest.length / 4 < fuel → readLoop fuel rest records = .ok out →
    ∃ rs, out = records ++ rs ∧ rest = frames rs ∧ ∀ r ∈ rs, r.length < 4294967296 := by
  induction fuel with
  | zero => intro _ _ _ h; omega
  | succ f ih =>
    intro rest records out hf h
    match rest with
    | [] =>
      simp only [readLoop, Except.ok.injEq] at h
      exact ⟨[], by simp [h], by simp [frames], by simp⟩
    | [_] => simp [readLoop] at h
    | [_, _] => simp [readLoop] at h
    | [_, _, _] => simp [readLoop] at h
    | b0 :: b1 :: b2 :: b3 :: tl =>
      simp only [readLoop] at h
      split at h
      · simp at h
      · next hlen =>
        obtain ⟨rs, hout, hrest, hb⟩ := ih _ _ _
          (by simp only [List.length_cons, List.length_drop] at hf ⊢; omega) h
        have hl : (tl.take (uint32 b0 b1 b2 b3)).length = uint32 b0 b1 b2 b3 := by
          rw [List.length_take]; omega
        refine ⟨tl.take (uint32 b0 b1 b2 b3) :: rs, by simp [hout], ?_, ?_⟩
        · rw [frames_cons, ← hrest, frame, hl, putUint32_uint32]
          simp
        · intro r hr
          rcases List.mem_cons.1 hr with h1 | h1
          · rw [h1, hl]; exact uint32_lt _ _ _ _
          · exact hb r h1

/-- `ReadAll` succeeds exactly on the files that are the frames of a sequence
of records, and returns that sequence. -/
theorem ReadAll_eq_ok_iff (file : List Byte) (recs : List (List Byte)) :
    ReadAll (.opened file) = .ok recs ↔
      file = frames recs ∧ ∀ r ∈ recs, r.length < 4294967296 := by
  constructor
  · intro h
    obtain ⟨rs, hout, hrest, hb⟩ := readLoop_ok_inv _ file [] recs (by omega) h
    simp only [List.nil_append] at hout
    subst hout
    exact ⟨hrest, hb⟩
  · rintro ⟨hf, hb⟩
    rw [hf]
    exact ReadAll_frames recs hb

/-- What a `Write` that returns no error leaves in the file. -/
theorem Write_ok (w : WAL) (p : List Byte) (io : WriteIO) (h : (Write w p io).2 = none) :
    (Write w p io).1 = { file := w.file ++ frame p, isOpen := true } := by
  obtain ⟨file, isOpen⟩ := w
  obtain ⟨lenW, dataW, sync⟩ := io
  cases isOpen <;> cases lenW <;> cases dataW <;> cases sync <;>
    simp_all [Write, fileWrite, fileSync, frame]

end wal

/-! ## Opening a queue -/

theorem foldl_loadRecord_timeout (c : Codec) (recs : List (List Byte)) : ∀ (q : Queue),
    (recs.foldl (loadRecord c) q).inFlight = q.inFlight ∧
    (recs.foldl (loadRecord c) q).topic = q.topic ∧
    (recs.foldl (loadRecord c) q).inFlightTimeout = q.inFlightTimeout ∧
    (recs.foldl (loadRecord c) q).wal = q.wal ∧
    (recs.foldl (loadRecord c) q).metrics = q.metrics := by
  induction recs with
  | nil => intro q; simp
  | cons r rs ih =>
    intro q
    simp only [List.foldl_cons]
    have h := ih (loadRecord c q r)
    have h2 : (loadRecord c q r).inFlight = q.inFlight ∧ (loadRecord c q r).topic = q.topic ∧
        (loadRecord c q r).inFlightTimeout = q.inFlightTimeout ∧
        (loadRecord c q r).wal = q.wal ∧ (loadRecord c q r).metrics = q.metrics := by
      unfold loadRecord; split <;> simp
    simp only [h, h2, and_self]

/-- The queue `loadFromWAL` starts from. -/
theorem NewQueue_of_ReadAll (c : Codec) (topic : String) (timeout : Duration) (file : List Byte)
    (metrics : Metrics) (recs : List (List Byte))
    (h : wal.ReadAll (.opened file) = .ok recs) :
    ∃ q2, NewQueue c topic timeout (some file) metrics true = .ok q2 ∧
      q2.messages = (recs.foldl (loadRecord c)
        { topic := topic, messages := [], pending := [], inFlight := [],
          inFlightTimeout := timeout, wal := { file := file, isOpen := true },
          metrics := metrics }).messages ∧
      q2.pending = (recs.foldl (loadRecord c)
        { topic := topic, messages := [], pending := [], inFlight := [],
          inFlightTimeout := timeout, wal := { file := file, isOpen := true },
          metrics := metrics }).pending ∧
      q2.inFlight = [] ∧ q2.inFlightTimeout = timeout ∧ q2.topic = topic ∧
      q2.wal = { file := file, isOpen := true } := by
  simp only [NewQueue, wal.NewWAL, if_true, Option.getD_some, loadFromWAL, h]
  refine ⟨_, rfl, rfl, rfl, ?_, ?_, ?_, ?_⟩ <;> simp [foldl_loadRecord_timeout]

/-- C4 (durability), as amended: in a queue state whose WAL file is a sequence
of complete records, for a body whose encoded record is shorter than 2^32
bytes, if `Enqueue(body)` returns `msgID` without error, then `NewQueue` on the
resulting file succeeds and its index maps `msgID` to a message with that id and
a body equal to `body`. -/
theorem enqueue_durable (c : Codec) (hc : c.RoundTrip) (q : Queue) (body : List Byte)
    (msgID : String) (io : wal.WriteIO) (recs : List (List Byte))
    (topic : String) (timeout : Duration) (metrics : Metrics)
    (hwal : wal.ReadAll (.opened q.wal.file) = .ok recs)
    (hcap : c.Fits { ID := msgID, Body := body, Timestamp := 0 })
    (hok : (Enqueue c q body msgID io).2 = .ok msgID) :
    ∃ q2, NewQueue c topic timeout (some (Enqueue c q body msgID io).1.wal.file) metrics true
        = .ok q2 ∧
      q2.messages.get msgID = some { ID := msgID, Body := body, Timestamp := 0 } := by
  rcases Enqueue_cases c q body msgID io with ⟨⟨err, he⟩, _⟩ | ⟨_, _, _, _, _, data, hd, hw, hq⟩
  · rw [he] at hok; cases hok
  · rw [hq, wal.Write_ok _ _ _ hw]
    obtain ⟨hf, hb⟩ := (wal.ReadAll_eq_ok_iff _ _).1 hwal
    have hread : wal.ReadAll (.opened (q.wal.file ++ wal.frame data)) = .ok (recs ++ [data]) := by
      rw [wal.ReadAll_eq_ok_iff, wal.frames_append, ← hf]
      refine ⟨by simp [wal.frames], ?_⟩
      intro r hr
      rcases List.mem_append.1 hr with h | h
      · exact hb r h
      · simp only [List.mem_singleton] at h; rw [h]; exact hcap data hd
    obtain ⟨q2, hq2, hm, _⟩ := NewQueue_of_ReadAll c topic timeout _ metrics _ hread
    refine ⟨q2, hq2, ?_⟩
    rw [hm, List.foldl_append]
    simp only [List.foldl_cons, List.foldl_nil, loadRecord, hc _ _ hd, GoMap.get_set, if_true]

/-- A torn append makes the next reopen fail, whatever the encoding: when an
`Enqueue` writes its length prefix and fails on its payload, and the next
`Enqueue` succeeds with a record more than four bytes shorter than the first,
`ReadAll` takes the second record's frame for the start of the first record's
payload and meets the end of the file inside it, so `NewQueue` returns an
error. -/
theorem torn_append_then_enqueue_fails_reopen (c : Codec)
    (topic : String) (timeout : Duration) (metrics : Metrics)
    (body1 body2 : List Byte) (msgID1 msgID2 : String) (d1 d2 : List Byte)
    (topic2 : String) (timeout2 : Duration) (metrics2 : Metrics)
    (h1 : c.Marshal { ID := msgID1, Body := body1, Timestamp := 0 } = some d1)
    (h2 : c.Marshal { ID := msgID2, Body := body2, Timestamp := 0 } = some d2)
    (hcap : d1.length < 4294967296) (hlen : 4 + d2.length < d1.length) :
    (Enqueue c (Enqueue c (emptyQueue topic timeout metrics) body1 msgID1
      ⟨none, some 0, true⟩).1 body2 msgID2 writeOk).2 = .ok msgID2 ∧
    NewQueue c topic2 timeout2 (some (Enqueue c (Enqueue c (emptyQueue topic timeout metrics)
      body1 msgID1 ⟨none, some 0, true⟩).1 body2 msgID2 writeOk).1.wal.file) metrics2 true
      = .error Error.unexpectedEOF := by
  obtain ⟨b0, b1, b2, b3, hp, hu⟩ := wal.uint32_putUint32 d1.length hcap
  have hl2 : (wal.putUint32 d2.length).length = 4 := rfl
  have hq1 : (Enqueue c (emptyQueue topic timeout metrics) body1 msgID1
      ⟨none, some 0, true⟩).1.wal = { file := [b0, b1, b2, b3], isOpen := true } := by
    simp [Enqueue, h1, wal.Write, wal.fileWrite, emptyQueue, hp]
  have hq2 : (Enqueue c (Enqueue c (emptyQueue topic timeout metrics) body1 msgID1
        ⟨none, some 0, true⟩).1 body2 msgID2 writeOk)
      = ({ (Enqueue c (emptyQueue topic timeout metrics) body1 msgID1
            ⟨none, some 0, true⟩).1 with
            wal := { file := [b0, b1, b2, b3] ++ (wal.putUint32 d2.length ++ d2),
                     isOpen := true }
            messages := (Enqueue c (emptyQueue topic timeout metrics) body1 msgID1
              ⟨none, some 0, true⟩).1.messages.set msgID2
              { ID := msgID2, Body := body2, Timestamp := 0 }
            pending := (Enqueue c (emptyQueue topic timeout metrics) body1 msgID1
              ⟨none, some 0, true⟩).1.pending ++ [msgID2]
            metrics := (Enqueue c (emptyQueue topic timeout metrics) body1 msgID1
              ⟨none, some 0, true⟩).1.metrics.SetQueueDepth
                (Enqueue c (emptyQueue topic timeout metrics) body1 msgID1
                  ⟨none, some 0, true⟩).1.topic
                ((Enqueue c (emptyQueue topic timeout metrics) body1 msgID1
                  ⟨none, some 0, true⟩).1.pending ++ [msgID2]).length },
          .ok msgID2) := by
    generalize Enqueue c (emptyQueue topic timeout metrics) body1 msgID1
      ⟨none, some 0, true⟩ = r at hq1 ⊢
    simp [Enqueue, h2, wal.Write, wal.fileWrite, wal.fileSync, writeOk, hq1]
  rw [hq2]
  refine ⟨rfl, ?_⟩
  have hshort : (wal.putUint32 d2.length ++ d2).length < wal.uint32 b0 b1 b2 b3 := by
    rw [List.length_append, hl2, hu]; exact hlen
  simp only [NewQueue, wal.NewWAL, if_true, Option.getD_some, loadFromWAL, wal.ReadAll,
    List.cons_append, List.nil_append, wal.readLoop, hshort]

/-- C4 (durability), as stated, fails in the state left by an `Enqueue` whose
length prefix was written and whose payload was not.  A nine-byte body is
enqueued and its payload write fails; the next `Enqueue`, of an empty body,
returns its id without error.  The file then holds the first record's prefix
followed by the whole second record, which is shorter than the payload the
prefix announces, so `ReadAll` meets the end of the file inside a record and
`NewQueue` returns an error.  (`torn_append_then_enqueue_fails_reopen` shows the
same outcome for every encoding in which the second record is more than four
bytes shorter than the first, as it is with `encoding/json`.) -/
theorem enqueue_after_torn_append_not_durable :
    (Enqueue plainCodec
      (run plainCodec (emptyQueue "t" 10 NewMetrics)
        [.enqueue [1, 2, 3, 4, 5, 6, 7, 8, 9] "a" ⟨none, some 0, true⟩])
      [] "b" writeOk).2 = .ok "b" ∧
    NewQueue plainCodec "t" 10 (some (Enqueue plainCodec
      (run plainCodec (emptyQueue "t" 10 NewMetrics)
        [.enqueue [1, 2, 3, 4, 5, 6, 7, 8, 9] "a" ⟨none, some 0, true⟩])
      [] "b" writeOk).1.wal.file) NewMetrics true = .error Error.unexpectedEOF := by
  decide

/-! ## The stand-in codec -/

theorem plainCodec_roundTrip : plainCodec.RoundTrip := by
  intro m d h
  obtain ⟨⟨chars⟩, body, ts⟩ := m
  simp only [plainCodec] at h ⊢
  split at h
  · next hcond =>
    obtain ⟨hlen, hch⟩ := hcond
    change chars.length < 256 at hlen
    change ∀ ch ∈ chars, ch.toNat < 256 at hch
    simp only [Option.some.injEq] at h
    subst h
    have hn : (Fin.ofNat (String.mk chars).length : Byte).val
        = (chars.map fun ch => (Fin.ofNat ch.toNat : Byte)).length := by
      rw [List.length_map]
      change chars.length % 256 = chars.length
      exact Nat.mod_eq_of_lt hlen
    have hmap : ((chars.map fun ch => (Fin.ofNat ch.toNat : Byte)).map
        fun b => Char.ofNat b.val) = chars := by
      rw [List.map_map]
      conv => rhs; rw [← List.map_id chars]
      apply List.map_congr_left
      intro ch hmem
      have hv : (Fin.ofNat ch.toNat : Byte).val = ch.toNat := by
        change ch.toNat % 256 = ch.toNat
        exact Nat.mod_eq_of_lt (hch ch hmem)
      simp only [Function.comp, hv, id_eq]
      exact Char.ofNat_toNat ch
    change (if (Fin.ofNat (String.mk chars).length : Byte).val
          ≤ ((chars.map fun ch => (Fin.ofNat ch.toNat : Byte)) ++ body).length then _ else _) = _
    rw [hn, if_pos (by simp)]
    simp only [List.append_eq, List.take_left, List.drop_left, hmap]
  · cases h

/-! ## Invariants of the index -/

theorem requeueEntry_frame (now : Time) (q : Queue) (e : String × Time) :
    (requeueEntry now q e).messages = q.messages ∧ (requeueEntry now q e).wal = q.wal ∧
    (requeueEntry now q e).inFlightTimeout = q.inFlightTimeout ∧
    (requeueEntry now q e).topic = q.topic ∧ (requeueEntry now q e).metrics = q.metrics := by
  unfold requeueEntry
  split <;> simp

theorem RequeueOrphaned_frame (now : Time) (order : List (String × Time)) : ∀ (q : Queue),
    (RequeueOrphaned q now order).messages = q.messages ∧
    (RequeueOrphaned q now order).wal = q.wal ∧
    (RequeueOrphaned q now order).inFlightTimeout = q.inFlightTimeout ∧
    (RequeueOrphaned q now order).topic = q.topic ∧
    (RequeueOrphaned q now order).metrics = q.metrics := by
  induction order with
  | nil => intro q; simp [RequeueOrphaned]
  | cons e es ih =>
    intro q
    have h1 := requeueEntry_frame now q e
    have h2 := ih (requeueEntry now q e)
    simp only [RequeueOrphaned, List.foldl_cons] at h2 ⊢
    simp only [h2, h1, and_self]

theorem DequeueForProcessing_messages (q : Queue) (now : Time) :
    (DequeueForProcessing q now).1.messages = q.messages ∧
    (DequeueForProcessing q now).1.wal = q.wal ∧
    (DequeueForProcessing q now).1.inFlightTimeout = q.inFlightTimeout := by
  unfold DequeueForProcessing
  split <;> simp

/-- What one call does to the index. -/
theorem step_messages (c : Codec) (q : Queue) (op : Op) :
    (step c q op).1.messages = q.messages ∨
    (∃ body msgID io, op = .enqueue body msgID io ∧
      (step c q op).1.messages
        = q.messages.set msgID { ID := msgID, Body := body, Timestamp := 0 }) ∨
    (∃ msgID order io, op = .ack msgID order io ∧
      (step c q op).1.messages = q.messages.delete msgID) := by
  cases op with
  | enqueue body msgID io =>
    rcases Enqueue_cases c q body msgID io with ⟨_, h, _⟩ | ⟨_, h, _⟩
    · left; exact h
    · right; left; exact ⟨body, msgID, io, rfl, h⟩
  | dequeue now => left; exact (DequeueForProcessing_messages q now).1
  | ack msgID order io => right; right; exact ⟨msgID, order, io, rfl, rfl⟩
  | requeue now order => left; exact (RequeueOrphaned_frame now order q).1

theorem step_keyInv (c : Codec) (q : Queue) (op : Op) (h : KeyInv q) : KeyInv (step c q op).1 := by
  rcases step_messages c q op with hm | ⟨body, msgID, io, _, hm⟩ | ⟨msgID, order, io, _, hm⟩
  · intro e he; rw [hm] at he; exact h e he
  · intro e he
    rw [hm, GoMap.mem_set] at he
    rcases he with ⟨he, _⟩ | he
    · exact h e he
    · rw [he]
  · intro e he
    rw [hm, GoMap.mem_delete] at he
    exact h e he.1

theorem run_keyInv (c : Codec) : ∀ (ops : List Op) (q : Queue), KeyInv q → KeyInv (run c q ops) := by
  intro ops
  induction ops with
  | nil => intro q h; exact h
  | cons op ops ih => intro q h; exact ih _ (step_keyInv c q op h)

theorem step_fitsInv (c : Codec) (q : Queue) (op : Op) (hop : op.fits c) (h : FitsInv c q) :
    FitsInv c (step c q op).1 := by
  rcases step_messages c q op with hm | ⟨body, msgID, io, hop2, hm⟩ | ⟨msgID, order, io, _, hm⟩
  · intro e he; rw [hm] at he; exact h e he
  · intro e he
    rw [hm, GoMap.mem_set] at he
    rcases he with ⟨he, _⟩ | he
    · exact h e he
    · rw [he]; subst hop2; exact hop
  · intro e he
    rw [hm, GoMap.mem_delete] at he
    exact h e he.1

theorem run_fitsInv (c : Codec) : ∀ (ops : List Op) (q : Queue), (∀ op ∈ ops, op.fits c) →
    FitsInv c q → FitsInv c (run c q ops) := by
  intro ops
  induction ops with
  | nil => intro q _ h; exact h
  | cons op ops ih =>
    intro q hf h
    exact ih _ (fun o ho => hf o (List.mem_cons_of_mem _ ho))
      (step_fitsInv c q op (hf op (List.mem_cons_self _ _)) h)

theorem emptyQueue_keyInv (topic : String) (timeout : Duration) (metrics : Metrics) :
    KeyInv (emptyQueue topic timeout metrics) := by
  intro e he; simp [emptyQueue] at he

theorem emptyQueue_fitsInv (c : Codec) (topic : String) (timeout : Duration) (metrics : Metrics) :
    FitsInv c (emptyQueue topic timeout metrics) := by
  intro e he; simp [emptyQueue] at he

/-- Loading records none of which decodes to `msgID` leaves `msgID` out of the
index and out of `pending`. -/
theorem foldl_loadRecord_avoids (c : Codec) (msgID : String) (recs : List (List Byte))
    (hrecs : ∀ r ∈ recs, ∀ m, c.Unmarshal r = some m → m.ID ≠ msgID) : ∀ (q : Queue),
    q.messages.get msgID = none → msgID ∉ q.pending → KeyInv q →
    (recs.foldl (loadRecord c) q).messages.get msgID = none ∧
    msgID ∉ (recs.foldl (loadRecord c) q).pending ∧ KeyInv (recs.foldl (loadRecord c) q) := by
  induction recs with
  | nil => intro q h1 h2 h3; exact ⟨h1, h2, h3⟩
  | cons r rs ih =>
    intro q h1 h2 h3
    simp only [List.foldl_cons]
    apply ih (fun x hx => hrecs x (List.mem_cons_of_mem _ hx))
    · unfold loadRecord
      cases hu : c.Unmarshal r with
      | none => exact h1
      | some m =>
        have hne := hrecs r (List.mem_cons_self _ _) m hu
        simp [GoMap.get_set, Ne.symm hne, h1]
    · unfold loadRecord
      cases hu : c.Unmarshal r with
      | none => exact h2
      | some m =>
        have hne := hrecs r (List.mem_cons_self _ _) m hu
        simp [h2, Ne.symm hne]
    · unfold loadRecord
      cases hu : c.Unmarshal r with
      | none => exact h3
      | some m =>
        intro e he
        simp only [GoMap.mem_set] at he
        rcases he with ⟨he, _⟩ | he
        · exact h3 e he
        · rw [he]

/-- As long as no `Enqueue` is handed `msgID`, a queue whose index lacks `msgID`
never returns a message with that id. -/
theorem outputs_avoid (c : Codec) (msgID : String) : ∀ (ops : List Op) (q : Queue),
    (∀ op ∈ ops, op.avoids msgID) → KeyInv q → q.messages.get msgID = none →
    ∀ m, Out.dequeued (some m) ∈ outputs c q ops → m.ID ≠ msgID := by
  intro ops
  induction ops with
  | nil => intro q _ _ _ m hm; simp [outputs] at hm
  | cons op ops ih =>
    intro q hav hk hg m hm
    simp only [outputs, List.mem_cons] at hm
    rcases hm with hm | hm
    · cases op with
      | enqueue body k io => simp [step] at hm
      | ack k order io => simp [step] at hm
      | requeue now order => simp [step] at hm
      | dequeue now =>
        simp only [step, Out.dequeued.injEq] at hm
        unfold DequeueForProcessing at hm
        split at hm
        · cases hm
        · next k rest _ =>
          simp only at hm
          have hmem := GoMap.get_some_mem _ _ _ hm.symm
          have hid := hk _ hmem
          simp only at hid
          intro heq
          rw [hid] at heq
          rw [heq, hg] at hm
          cases hm
    · apply ih (step c q op).1 (fun o ho => hav o (List.mem_cons_of_mem _ ho))
        (step_keyInv c q op hk) _ m hm
      have hop := hav op (List.mem_cons_self _ _)
      rcases step_messages c q op with h | ⟨body, k, io, hop2, h⟩ | ⟨k, order, io, _, h⟩
      · rw [h]; exact hg
      · subst hop2
        simp only [Op.avoids] at hop
        rw [h, GoMap.get_set]; simp [Ne.symm hop, hg]
      · rw [h, GoMap.get_delete]; simp [hg]

/-! ## Acknowledgement and reopening -/

/-- The records of a rewrite from an index under `KeyInv` and `FitsInv`: each is
short enough, and decodes to a message filed under its own id. -/
theorem remainingRecords_spec (c : Codec) (hc : c.RoundTrip) (q : Queue) (hk : KeyInv q)
    (hf : FitsInv c q) (msgID : String) (order : List (String × Message))
    (horder : order.Perm (q.messages.delete msgID)) :
    (∀ r ∈ remainingRecords c order, r.length < 4294967296) ∧
    (∀ r ∈ remainingRecords c order, ∀ m, c.Unmarshal r = some m → m.ID ≠ msgID) := by
  have hmem : ∀ r ∈ remainingRecords c order,
      ∃ e ∈ q.messages, e.1 ≠ msgID ∧ c.Marshal e.2 = some r := by
    intro r hr
    simp only [remainingRecords, List.mem_filterMap] at hr
    obtain ⟨e, he, hm⟩ := hr
    have := (GoMap.mem_delete _ _ _).1 (horder.mem_iff.1 he)
    exact ⟨e, this.1, this.2, hm⟩
  constructor
  · intro r hr
    obtain ⟨e, he, _, hm⟩ := hmem r hr
    exact hf e he r hm
  · intro r hr m hu
    obtain ⟨e, he, hne, hm⟩ := hmem r hr
    rw [hc _ _ hm] at hu
    cases hu
    simp only
    rw [hk e he]
    exact hne

/-- C5 (ack removes): in every state reached from a queue opened on an empty
WAL, after an `AckMessage(msgID)` whose rewrite returns no error and has no
failing write, `NewQueue` on the resulting file succeeds, the reopened queue has
`msgID` neither in its index nor in `pending`, and no `DequeueForProcessing` on
it ever returns a message with that id, as long as no `Enqueue` is handed that
id again; when the acked message was the only one, the reopened queue is empty
and `DequeueForProcessing` returns nil. -/
theorem ack_then_reopen_drops_id (c : Codec) (hc : c.RoundTrip)
    (topic : String) (timeout : Duration) (metrics : Metrics) (ops : List Op)
    (hfits : ∀ op ∈ ops, op.fits c)
    (msgID : String) (order : List (String × Message)) (io : wal.RewriteIO)
    (horder : (Op.ack msgID order io).valid (run c (emptyQueue topic timeout metrics) ops))
    (hw : ∀ o ∈ io.writes, o = (none, none))
    (hok : (wal.Rewrite (run c (emptyQueue topic timeout metrics) ops).wal
      (remainingRecords c order) io).2 = none)
    (topic2 : String) (timeout2 : Duration) (metrics2 : Metrics) :
    ∃ q2, NewQueue c topic2 timeout2
        (some (AckMessage c (run c (emptyQueue topic timeout metrics) ops) msgID order io).wal.file)
        metrics2 true = .ok q2 ∧
      q2.messages.get msgID = none ∧ msgID ∉ q2.pending ∧
      (∀ ops2, (∀ op ∈ ops2, op.avoids msgID) →
        ∀ m, Out.dequeued (some m) ∈ outputs c q2 ops2 → m.ID ≠ msgID) ∧
      ((run c (emptyQueue topic timeout metrics) ops).messages.delete msgID = [] →
        q2.messages = [] ∧ q2.pending = [] ∧ ∀ now, (DequeueForProcessing q2 now).2 = none) := by
  have hk := run_keyInv c ops _ (emptyQueue_keyInv topic timeout metrics)
  have hf := run_fitsInv c ops _ hfits (emptyQueue_fitsInv c topic timeout metrics)
  obtain ⟨hlen, hids⟩ := remainingRecords_spec c hc _ hk hf msgID order horder
  have hfile : (AckMessage c (run c (emptyQueue topic timeout metrics) ops) msgID order io).wal.file
      = wal.frames (remainingRecords c order) := by
    simp only [AckMessage, wal.Rewrite_ok _ _ _ hw hok]
  rw [hfile]
  obtain ⟨q2, hq2, hm, hp, _⟩ := NewQueue_of_ReadAll c topic2 timeout2 _ metrics2 _
    (wal.ReadAll_frames _ hlen)
  obtain ⟨h1, h2, h3⟩ := foldl_loadRecord_avoids c msgID (remainingRecords c order) hids
    { topic := topic2, messages := [], pending := [], inFlight := [],
      inFlightTimeout := timeout2,
      wal := { file := wal.frames (remainingRecords c order), isOpen := true },
      metrics := metrics2 }
    rfl (by simp) (by intro e he; simp at he)
  rw [← hm] at h1
  rw [← hp] at h2
  have h3' : KeyInv q2 := by
    intro e he
    rw [hm] at he
    exact h3 e he
  refine ⟨q2, hq2, h1, h2, fun ops2 hav => outputs_avoid c msgID ops2 q2 hav h3' h1, ?_⟩
  intro hempty
  have horder' : order = [] := by
    have h : order.Perm [] := by
      have := horder
      simp only [Op.valid, hempty] at this
      exact this
    exact List.Perm.eq_nil h
  have hm0 : q2.messages = [] := by rw [hm, horder']; rfl
  have hp0 : q2.pending = [] := by rw [hp, horder']; rfl
  exact ⟨hm0, hp0, fun now => by simp [DequeueForProcessing, hp0]⟩

theorem ack_then_reopen_drops_id_witness :
    (∀ op ∈ [Op.enqueue [1] "a" writeOk, Op.dequeue 3], op.fits plainCodec) ∧
    (Op.ack "a" [] rewriteOk).valid
      (run plainCodec (emptyQueue "t" 10 NewMetrics) [.enqueue [1] "a" writeOk, .dequeue 3]) ∧
    (∀ o ∈ rewriteOk.writes, o = (none, none)) ∧
    (wal.Rewrite
      (run plainCodec (emptyQueue "t" 10 NewMetrics) [.enqueue [1] "a" writeOk, .dequeue 3]).wal
      (remainingRecords plainCodec []) rewriteOk).2 = none ∧
    ∃ q2, NewQueue plainCodec "t" 10
        (some (AckMessage plainCodec
          (run plainCodec (emptyQueue "t" 10 NewMetrics) [.enqueue [1] "a" writeOk, .dequeue 3])
          "a" [] rewriteOk).wal.file) NewMetrics true = .ok q2 ∧
      q2.messages.get "a" = none ∧ "a" ∉ q2.pending :=
  ⟨by decide, by decide, by decide, by decide,
   (ack_then_reopen_drops_id plainCodec plainCodec_roundTrip "t" 10 NewMetrics
     [.enqueue [1] "a" writeOk, .dequeue 3] (by decide) "a" [] rewriteOk (by decide) (by decide)
     (by decide) "t" 10 NewMetrics).imp (fun _ h => ⟨h.1, h.2.1, h.2.2.1⟩)⟩

theorem enqueue_durable_witness :
    wal.ReadAll (.opened (emptyQueue "t" 10 NewMetrics).wal.file) = .ok [] ∧
    plainCodec.Fits { ID := "a", Body := [1], Timestamp := 0 } ∧
    (Enqueue plainCodec (emptyQueue "t" 10 NewMetrics) [1] "a" writeOk).2 = .ok "a" ∧
    ∃ q2, NewQueue plainCodec "t" 10
        (some (Enqueue plainCodec (emptyQueue "t" 10 NewMetrics) [1] "a" writeOk).1.wal.file)
        NewMetrics true = .ok q2 ∧
      q2.messages.get "a" = some { ID := "a", Body := [1], Timestamp := 0 } :=
  ⟨by decide, by decide, by decide,
   enqueue_durable plainCodec plainCodec_roundTrip (emptyQueue "t" 10 NewMetrics) [1] "a" writeOk
     [] "t" 10 NewMetrics (by decide) (by decide) (by decide)⟩

/-! ## Recovery -/

theorem emptyQueue_recoverable (c : Codec) (topic : String) (timeout : Duration)
    (metrics : Metrics) : Recoverable c (emptyQueue topic timeout metrics) := by
  refine ⟨by simp [emptyQueue, GoMap.keys], emptyQueue_keyInv topic timeout metrics,
    by intro e he; simp [emptyQueue] at he, [], ?_⟩
  simp [Synced, emptyQueue, wal.frames]

/-- A list that pairs the visited messages with the records collected for them. -/
theorem exists_encoded (c : Codec) : ∀ (order : List (String × Message)),
    (∀ e ∈ order, ∃ d, c.Marshal e.2 = some d ∧ d.length < 4294967296) →
    ∃ L : List (Message × List Byte), L.map Prod.fst = order.map Prod.snd ∧
      L.map Prod.snd = remainingRecords c order ∧
      ∀ p ∈ L, c.Marshal p.1 = some p.2 ∧ p.2.length < 4294967296 := by
  intro order
  induction order with
  | nil => intro _; exact ⟨[], by simp [remainingRecords]⟩
  | cons e es ih =>
    intro h
    obtain ⟨d, hd, hl⟩ := h e (List.mem_cons_self _ _)
    obtain ⟨L, h1, h2, h3⟩ := ih (fun x hx => h x (List.mem_cons_of_mem _ hx))
    refine ⟨(e.2, d) :: L, by simp [h1], ?_, ?_⟩
    · simp only [remainingRecords] at h2 ⊢
      simp [List.filterMap_cons, hd, h2]
    · intro p hp
      rcases List.mem_cons.1 hp with hp | hp
      · rw [hp]; exact ⟨hd, hl⟩
      · exact h3 p hp

theorem step_recoverable (c : Codec) (q : Queue) (op : Op) (hv : op.valid q) (hf : op.fits c)
    (hs : op.succeeds c q) (h : Recoverable c q) : Recoverable c (step c q op).1 := by
  obtain ⟨hnd, hk, hts, L, hfile, hL, hperm⟩ := h
  cases op with
  | dequeue now =>
    obtain ⟨h1, h2, _⟩ := DequeueForProcessing_messages q now
    simp only [step]
    refine ⟨by rw [h1]; exact hnd, by intro e he; rw [h1] at he; exact hk e he,
      by intro e he; rw [h1] at he; exact hts e he, L, ?_⟩
    simp only [Synced, h1, h2]
    exact ⟨hfile, hL, hperm⟩
  | requeue now order =>
    obtain ⟨h1, h2, _⟩ := RequeueOrphaned_frame now order q
    simp only [step]
    refine ⟨by rw [h1]; exact hnd, by intro e he; rw [h1] at he; exact hk e he,
      by intro e he; rw [h1] at he; exact hts e he, L, ?_⟩
    simp only [Synced, h1, h2]
    exact ⟨hfile, hL, hperm⟩
  | enqueue body msgID io =>
    simp only [Op.succeeds] at hs
    simp only [Op.fits] at hf
    rcases Enqueue_cases c q body msgID io with ⟨⟨err, he⟩, _⟩ | ⟨_, h1, _, _, _, data, hd, hw, hq⟩
    · rw [he] at hs; cases hs
    · have hset : q.messages.set msgID { ID := msgID, Body := body, Timestamp := 0 }
          = q.messages ++ [(msgID, { ID := msgID, Body := body, Timestamp := 0 })] := by
        simp only [GoMap.set, GoMap.delete_of_get_none _ _ hv.1]
      simp only [step]
      refine ⟨?_, ?_, ?_, L ++ [({ ID := msgID, Body := body, Timestamp := 0 }, data)], ?_, ?_, ?_⟩
      · rw [h1, hset]
        simp only [GoMap.keys, List.map_append, List.map_cons, List.map_nil]
        have hnot := (GoMap.get_eq_none _ _).1 hv.1
        simp only [GoMap.keys] at hnot hnd
        exact List.Nodup.append hnd (List.nodup_singleton _)
          (by simpa using hnot)
      · intro e he
        rw [h1, hset] at he
        rcases List.mem_append.1 he with he | he
        · exact hk e he
        · simp at he; rw [he]
      · intro e he
        rw [h1, hset] at he
        rcases List.mem_append.1 he with he | he
        · exact hts e he
        · simp at he; rw [he]
      · rw [hq, wal.Write_ok _ _ _ hw, hfile]
        simp [wal.frames_append, wal.frames]
      · intro p hp
        rcases List.mem_append.1 hp with hp | hp
        · exact hL p hp
        · simp at hp; rw [hp]; exact ⟨hd, hf data hd⟩
      · rw [h1, hset]
        simp only [List.map_append, List.map_cons, List.map_nil]
        exact hperm.append_right _
  | ack msgID order io =>
    simp only [Op.succeeds] at hs
    simp only [Op.valid] at hv
    have hsub : ∀ e ∈ order, e ∈ q.messages := fun e he =>
      ((GoMap.mem_delete _ _ _).1 (hv.mem_iff.1 he)).1
    have henc : ∀ e ∈ order, ∃ d, c.Marshal e.2 = some d ∧ d.length < 4294967296 := by
      intro e he
      have : e.2 ∈ L.map Prod.fst :=
        hperm.mem_iff.2 (List.mem_map_of_mem _ (hsub e he))
      obtain ⟨p, hp, hpe⟩ := List.mem_map.1 this
      rw [← hpe]
      exact ⟨p.2, hL p hp⟩
    obtain ⟨L2, h1, h2, h3⟩ := exists_encoded c order henc
    simp only [step, AckMessage]
    refine ⟨?_, ?_, ?_, L2, ?_, h3, ?_⟩
    · simp only [GoMap.keys, GoMap.delete] at hnd ⊢
      exact (List.filter_sublist _).map _ |>.nodup hnd
    · intro e he; exact hk e ((GoMap.mem_delete _ _ _).1 he).1
    · intro e he; exact hts e ((GoMap.mem_delete _ _ _).1 he).1
    · simp only [wal.Rewrite_ok _ _ _ hs.1 hs.2, h2]
    · rw [h1]; exact hv.map _

theorem run_recoverable (c : Codec) : ∀ (ops : List Op) (q : Queue), Successful c q ops →
    Recoverable c q → Recoverable c (run c q ops) := by
  intro ops
  induction ops with
  | nil => intro q _ h; exact h
  | cons op ops ih =>
    intro q hs h
    exact ih _ hs.2 (step_recoverable c q op hs.1.1 hs.1.2.1 hs.1.2.2 h)

namespace GoMap

variable {V : Type}

theorem get_eq_some_iff (m : GoMap V) (hnd : (keys m).Nodup) (k : String) (v : V) :
    get m k = some v ↔ (k, v) ∈ m := by
  refine ⟨get_some_mem m k v, ?_⟩
  induction m with
  | nil => intro h; simp at h
  | cons e m ih =>
    obtain ⟨k', v'⟩ := e
    intro h
    simp only [keys, List.map_cons, List.nodup_cons] at hnd
    simp only [get]
    rcases List.mem_cons.1 h with h | h
    · cases h; simp
    · have hk : k ∈ m.map Prod.fst := List.mem_map.2 ⟨(k, v), h, rfl⟩
      have hne : k' ≠ k := fun heq => hnd.1 (heq ▸ hk)
      simp only [hne, if_false]
      exact ih hnd.2 h

theorem get_perm (m1 m2 : GoMap V) (h1 : (keys m1).Nodup) (h2 : (keys m2).Nodup)
    (hp : m1.Perm m2) (k : String) : get m1 k = get m2 k := by
  apply Option.ext
  intro v
  simp only [Option.mem_def]
  rw [get_eq_some_iff m1 h1, get_eq_some_iff m2 h2]
  exact hp.mem_iff

end GoMap

/-- Loading the encodings of messages with distinct ids, none of them in the
index yet, appends them to the index and their ids to `pending`. -/
theorem foldl_loadRecord_encoded (c : Codec) (hc : c.RoundTrip) :
    ∀ (L : List (Message × List Byte)) (q : Queue),
    (∀ p ∈ L, c.Marshal p.1 = some p.2) → (∀ p ∈ L, p.1.Timestamp = 0) →
    (q.messages.keys ++ L.map (fun p => p.1.ID)).Nodup →
    ((L.map Prod.snd).foldl (loadRecord c) q).messages
      = q.messages ++ L.map (fun p => (p.1.ID, p.1)) ∧
    ((L.map Prod.snd).foldl (loadRecord c) q).pending
      = q.pending ++ L.map (fun p => p.1.ID) := by
  intro L
  induction L with
  | nil => intro q _ _ _; simp
  | cons p L ih =>
    intro q hm hts hnd
    have hu : c.Unmarshal p.2 = some p.1 := by
      have h := hc _ _ (hm p (List.mem_cons_self _ _))
      have ht := hts p (List.mem_cons_self _ _)
      rw [h]
      cases hp : p.1
      rw [hp] at ht
      simp only at ht
      simp [ht]
    have hfresh : q.messages.get p.1.ID = none := by
      rw [GoMap.get_eq_none]
      intro hmem
      have := List.nodup_append.1 hnd
      exact this.2.2 hmem (by simp)
    have hstep : (loadRecord c q p.2).messages = q.messages ++ [(p.1.ID, p.1)] ∧
        (loadRecord c q p.2).pending = q.pending ++ [p.1.ID] := by
      simp only [loadRecord, hu, GoMap.set, GoMap.delete_of_get_none _ _ hfresh, and_self]
    simp only [List.map_cons, List.foldl_cons]
    obtain ⟨h1, h2⟩ := ih (loadRecord c q p.2)
      (fun x hx => hm x (List.mem_cons_of_mem _ hx))
      (fun x hx => hts x (List.mem_cons_of_mem _ hx))
      (by
        rw [hstep.1]
        simp only [GoMap.keys, List.map_append, List.map_cons, List.map_nil,
          List.append_assoc, List.singleton_append] at hnd ⊢
        exact hnd)
    rw [h1, h2, hstep.1, hstep.2]
    simp

/-- Reopening a queue whose WAL file mirrors its index. -/
theorem reopen_of_recoverable (c : Codec) (hc : c.RoundTrip) (q : Queue) (h : Recoverable c q)
    (topic : String) (timeout : Duration) (metrics : Metrics) :
    ∃ q2, NewQueue c topic timeout (some q.wal.file) metrics true = .ok q2 ∧
      q2.messages.Perm q.messages ∧ (∀ k, q2.messages.get k = q.messages.get k) ∧
      q2.pending.Nodup ∧ (∀ k, k ∈ q2.pending ↔ k ∈ q.messages.keys) ∧ q2.inFlight = [] := by
  obtain ⟨hnd, hk, hts, L, hfile, hL, hperm⟩ := h
  have hread : wal.ReadAll (.opened q.wal.file) = .ok (L.map Prod.snd) := by
    rw [hfile]
    apply wal.ReadAll_frames
    intro r hr
    obtain ⟨p, hp, hpe⟩ := List.mem_map.1 hr
    rw [← hpe]
    exact (hL p hp).2
  obtain ⟨q2, hq2, hm, hp, hi, _⟩ := NewQueue_of_ReadAll c topic timeout _ metrics _ hread
  -- the ids of the stored messages are the keys of the index
  have hkeys : (q.messages.map Prod.snd).map Message.ID = q.messages.keys := by
    simp only [GoMap.keys, List.map_map]
    apply List.map_congr_left
    intro e he
    exact hk e he
  have hids : (L.map (fun p => p.1.ID)).Perm q.messages.keys := by
    have := hperm.map Message.ID
    rw [hkeys] at this
    simpa [List.map_map] using this
  have hLts : ∀ p ∈ L, p.1.Timestamp = 0 := by
    intro p hp
    have : p.1 ∈ q.messages.map Prod.snd := hperm.mem_iff.1 (List.mem_map_of_mem _ hp)
    obtain ⟨e, he, hee⟩ := List.mem_map.1 this
    rw [← hee]
    exact hts e he
  obtain ⟨f1, f2⟩ := foldl_loadRecord_encoded c hc L
    { topic := topic, messages := [], pending := [], inFlight := [],
      inFlightTimeout := timeout, wal := { file := q.wal.file, isOpen := true },
      metrics := metrics }
    (fun p hp => (hL p hp).1) hLts
    (by simpa [GoMap.keys] using hids.nodup_iff.2 hnd)
  simp only [List.nil_append] at f1 f2
  rw [f1] at hm
  rw [f2] at hp
  have hentries : q2.messages.Perm q.messages := by
    have h1 : q2.messages = (L.map Prod.fst).map (fun m => (m.ID, m)) := by
      rw [hm, List.map_map]; rfl
    have h2 : q.messages = (q.messages.map Prod.snd).map (fun m => (m.ID, m)) := by
      rw [List.map_map]
      conv => lhs; rw [← List.map_id q.messages]
      apply List.map_congr_left
      intro e he
      simp only [Function.comp, id_eq, hk e he]
    rw [h1, h2]
    exact hperm.map _
  have hq2keys : q2.messages.keys = q2.pending := by
    rw [hm, hp]; simp [GoMap.keys, List.map_map, Function.comp]
  have hq2nd : q2.messages.keys.Nodup := by
    rw [hq2keys, hp]; exact hids.nodup_iff.2 hnd
  refine ⟨q2, hq2, hentries, fun k => GoMap.get_perm _ _ hq2nd hnd hentries k, ?_, ?_, hi⟩
  · rw [← hq2keys]; exact hq2nd
  · intro k; rw [hp]; exact hids.mem_iff

/-- C6 (recovery equivalence): after any sequence of successful calls on a
queue opened on an empty WAL, `NewQueue` on the resulting file succeeds and
yields a queue whose index has exactly the entries of the index before the
reopen (same ids, same messages), whose `pending` lists each id of the index
exactly once, and whose `inFlight` is empty. -/
theorem reopen_restores_index (c : Codec) (hc : c.RoundTrip)
    (topic : String) (timeout : Duration) (metrics : Metrics) (ops : List Op)
    (hs : Successful c (emptyQueue topic timeout metrics) ops)
    (topic2 : String) (timeout2 : Duration) (metrics2 : Metrics) :
    ∃ q2, NewQueue c topic2 timeout2
        (some (run c (emptyQueue topic timeout metrics) ops).wal.file) metrics2 true = .ok q2 ∧
      q2.messages.Perm (run c (emptyQueue topic timeout metrics) ops).messages ∧
      (∀ k, q2.messages.get k = (run c (emptyQueue topic timeout metrics) ops).messages.get k) ∧
      q2.pending.Nodup ∧
      (∀ k, k ∈ q2.pending ↔ k ∈ (run c (emptyQueue topic timeout metrics) ops).messages.keys) ∧
      q2.inFlight = [] :=
  reopen_of_recoverable c hc _
    (run_recoverable c ops _ hs (emptyQueue_recoverable c topic timeout metrics))
    topic2 timeout2 metrics2

theorem reopen_restores_index_witness :
    Successful plainCodec (emptyQueue "t" 10 NewMetrics)
      [.enqueue [1] "a" writeOk, .enqueue [2] "b" writeOk, .enqueue [3] "c" writeOk,
       .dequeue 5, .dequeue 6,
       .ack "b" [("c", ⟨"c", [3], 0⟩), ("a", ⟨"a", [1], 0⟩)] rewriteOk,
       .requeue 20 [("a", 5)]] ∧
    ∃ q2, NewQueue plainCodec "t" 10
        (some (run plainCodec (emptyQueue "t" 10 NewMetrics)
          [.enqueue [1] "a" writeOk, .enqueue [2] "b" writeOk, .enqueue [3] "c" writeOk,
           .dequeue 5, .dequeue 6,
           .ack "b" [("c", ⟨"c", [3], 0⟩), ("a", ⟨"a", [1], 0⟩)] rewriteOk,
           .requeue 20 [("a", 5)]]).wal.file) NewMetrics true = .ok q2 ∧
      q2.pending.Nodup ∧ q2.inFlight = [] :=
  ⟨by decide,
   (reopen_restores_index plainCodec plainCodec_roundTrip "t" 10 NewMetrics
     [.enqueue [1] "a" writeOk, .enqueue [2] "b" writeOk, .enqueue [3] "c" writeOk,
      .dequeue 5, .dequeue 6,
      .ack "b" [("c", ⟨"c", [3], 0⟩), ("a", ⟨"a", [1], 0⟩)] rewriteOk,
      .requeue 20 [("a", 5)]] (by decide) "t" 10 NewMetrics).imp
     (fun _ h => ⟨h.1, h.2.2.2.1, h.2.2.2.2.2⟩)⟩

/-! ## Requeueing orphans -/

/-- The sweep puts the expired ids at the head of `pending`, the last visited
first, and keeps what was pending behind them, in order. -/
theorem RequeueOrphaned_pending (now : Time) (order : List (String × Time)) : ∀ (q : Queue),
    (RequeueOrphaned q now order).pending
      = ((order.filter (expired q.inFlightTimeout now)).map Prod.fst).reverse ++ q.pending := by
  induction order with
  | nil => intro q; simp [RequeueOrphaned]
  | cons e es ih =>
    intro q
    have h := ih (requeueEntry now q e)
    simp only [RequeueOrphaned, List.foldl_cons] at h ⊢
    rw [h, (requeueEntry_frame now q e).2.2.1]
    by_cases hexp : now - e.2 > q.inFlightTimeout
    · simp [requeueEntry, hexp, expired, List.filter_cons]
    · simp [requeueEntry, hexp, expired, List.filter_cons]

theorem DequeueForProcessing_cons (q : Queue) (now : Time) (k : String) (rest : List String)
    (h : q.pending = k :: rest) :
    DequeueForProcessing q now
      = ({ q with pending := rest, inFlight := q.inFlight.set k now }, q.messages.get k) := by
  simp [DequeueForProcessing, h]

theorem DequeueForProcessing_nil (q : Queue) (now : Time) (h : q.pending = []) :
    DequeueForProcessing q now = (q, none) := by
  simp [DequeueForProcessing, h]

/-- What a `DequeueForProcessing` that returns a message does. -/
theorem DequeueForProcessing_some (q : Queue) (now : Time) (m : Message)
    (h : (DequeueForProcessing q now).2 = some m) :
    ∃ k rest, q.pending = k :: rest ∧ q.messages.get k = some m ∧
      (DequeueForProcessing q now).1.pending = rest ∧
      (DequeueForProcessing q now).1.inFlight = q.inFlight.set k now := by
  unfold DequeueForProcessing at h ⊢
  cases hp : q.pending with
  | nil => simp [hp] at h
  | cons k rest => simp only [hp] at h ⊢; exact ⟨k, rest, rfl, h, rfl, rfl⟩

/-- C7 (redelivery on orphan), as amended: if `DequeueForProcessing` returns
`m` at time `t` and `RequeueOrphaned` runs at `t'` with `t' - t` above the
timeout, the sweep puts the id under which `m` was dispatched back in `pending`,
among the expired ids that it places ahead of everything that was pending; and
when no other in-flight entry has expired at `t'`, the next
`DequeueForProcessing` returns `m` again. -/
theorem requeue_then_dequeue_redelivers (q : Queue) (t t' now : Time) (m : Message)
    (order : List (String × Time))
    (hdeq : (DequeueForProcessing q t).2 = some m)
    (horder : (Op.requeue t' order).valid (DequeueForProcessing q t).1)
    (hexp : t' - t > q.inFlightTimeout) :
    (∃ k front, q.pending.head? = some k ∧
      (RequeueOrphaned (DequeueForProcessing q t).1 t' order).pending
        = front ++ (DequeueForProcessing q t).1.pending ∧
      k ∈ front ∧
      ∀ x ∈ front, ∃ ts, (x, ts) ∈ (DequeueForProcessing q t).1.inFlight ∧
        t' - ts > q.inFlightTimeout) ∧
    ((∀ e ∈ (DequeueForProcessing q t).1.inFlight, t' - e.2 > q.inFlightTimeout →
        some e.1 = q.pending.head?) →
      (DequeueForProcessing (RequeueOrphaned (DequeueForProcessing q t).1 t' order) now).2
        = some m) := by
  obtain ⟨k, rest, hp, hget, hp1, hin1⟩ := DequeueForProcessing_some q t m hdeq
  have hto : (DequeueForProcessing q t).1.inFlightTimeout = q.inFlightTimeout :=
    (DequeueForProcessing_messages q t).2.2
  have hpend := RequeueOrphaned_pending t' order (DequeueForProcessing q t).1
  rw [hto] at hpend
  simp only [Op.valid] at horder
  have hkin : (k, t) ∈ (DequeueForProcessing q t).1.inFlight := by
    rw [hin1, GoMap.mem_set]; exact Or.inr rfl
  constructor
  · refine ⟨k, _, by simp [hp], hpend, ?_, ?_⟩
    · simp only [List.mem_reverse, List.mem_map, List.mem_filter]
      exact ⟨(k, t), ⟨horder.mem_iff.2 hkin, by simp [expired, hexp]⟩, rfl⟩
    · intro x hx
      simp only [List.mem_reverse, List.mem_map, List.mem_filter] at hx
      obtain ⟨e, ⟨he, hee⟩, hxe⟩ := hx
      refine ⟨e.2, ?_, by simpa [expired] using hee⟩
      rw [← hxe]
      exact horder.mem_iff.1 he
  · intro honly
    have hfilter : (DequeueForProcessing q t).1.inFlight.filter (expired q.inFlightTimeout t')
        = [(k, t)] := by
      rw [hin1, GoMap.set, List.filter_append]
      have h1 : (q.inFlight.delete k).filter (expired q.inFlightTimeout t') = [] := by
        rw [List.filter_eq_nil_iff]
        intro e he hee
        have hmem : e ∈ (DequeueForProcessing q t).1.inFlight := by
          rw [hin1, GoMap.mem_set]; exact Or.inl ((GoMap.mem_delete _ _ _).1 he)
        have := honly e hmem (by simpa [expired] using hee)
        rw [hp] at this
        simp only [List.head?_cons, Option.some.injEq] at this
        exact ((GoMap.mem_delete _ _ _).1 he).2 this
      rw [h1]
      simp [List.filter_cons, expired, hexp]
    have hord : order.filter (expired q.inFlightTimeout t') = [(k, t)] := by
      have := horder.filter (expired q.inFlightTimeout t')
      rw [hfilter] at this
      exact List.perm_singleton.1 this
    rw [hord] at hpend
    simp only [List.map_cons, List.map_nil, List.reverse_singleton, List.singleton_append]
      at hpend
    have hmsg : (RequeueOrphaned (DequeueForProcessing q t).1 t' order).messages = q.messages := by
      rw [(RequeueOrphaned_frame t' order _).1, (DequeueForProcessing_messages q t).1]
    rw [DequeueForProcessing_cons _ now k _ hpend, hmsg, hget]

theorem requeue_then_dequeue_redelivers_witness :
    (DequeueForProcessing
      (run plainCodec (emptyQueue "t" 10 NewMetrics)
        [.enqueue [1] "a" writeOk, .enqueue [2] "b" writeOk]) 0).2 = some ⟨"a", [1], 0⟩ ∧
    (Op.requeue 11 [("a", 0)]).valid (DequeueForProcessing
      (run plainCodec (emptyQueue "t" 10 NewMetrics)
        [.enqueue [1] "a" writeOk, .enqueue [2] "b" writeOk]) 0).1 ∧
    (11 : Time) - 0 > (run plainCodec (emptyQueue "t" 10 NewMetrics)
        [.enqueue [1] "a" writeOk, .enqueue [2] "b" writeOk]).inFlightTimeout ∧
    (DequeueForProcessing (RequeueOrphaned (DequeueForProcessing
      (run plainCodec (emptyQueue "t" 10 NewMetrics)
        [.enqueue [1] "a" writeOk, .enqueue [2] "b" writeOk]) 0).1 11 [("a", 0)]) 12).2
      = some ⟨"a", [1], 0⟩ :=
  ⟨by decide, by decide, by decide,
   (requeue_then_dequeue_redelivers
      (run plainCodec (emptyQueue "t" 10 NewMetrics)
        [.enqueue [1] "a" writeOk, .enqueue [2] "b" writeOk]) 0 11 12 ⟨"a", [1], 0⟩ [("a", 0)]
      (by decide) (by decide) (by decide)).2 (by decide)⟩

/-- C7 (redelivery on orphan), as stated, fails when two in-flight messages
expire in the same sweep: `b` is dispatched at time 1 and not acked, the sweep
at time 100 visits `b` before `a`, and the next dequeue returns `a`. -/
theorem requeue_of_two_orphans_redelivers_other :
    (DequeueForProcessing
      (run plainCodec (emptyQueue "t" 10 NewMetrics)
        [.enqueue [1] "a" writeOk, .enqueue [2] "b" writeOk, .dequeue 0]) 1).2
      = some ⟨"b", [2], 0⟩ ∧
    (Op.requeue 100 [("b", 1), ("a", 0)]).valid (DequeueForProcessing
      (run plainCodec (emptyQueue "t" 10 NewMetrics)
        [.enqueue [1] "a" writeOk, .enqueue [2] "b" writeOk, .dequeue 0]) 1).1 ∧
    (100 : Time) - 1 > (run plainCodec (emptyQueue "t" 10 NewMetrics)
        [.enqueue [1] "a" writeOk, .enqueue [2] "b" writeOk, .dequeue 0]).inFlightTimeout ∧
    (DequeueForProcessing (RequeueOrphaned (DequeueForProcessing
      (run plainCodec (emptyQueue "t" 10 NewMetrics)
        [.enqueue [1] "a" writeOk, .enqueue [2] "b" writeOk, .dequeue 0]) 1).1
      100 [("b", 1), ("a", 0)]) 101).2 = some ⟨"a", [1], 0⟩ := by
  decide

/-- What a run of dequeues returns: the `j`-th returns the index entry of the
`j`-th id of `pending`, or nil when there is no such id or no such entry. -/
theorem outputs_dequeues (c : Codec) : ∀ (times : List Time) (q : Queue) (j : Nat),
    (outputs c q (times.map Op.dequeue))[j]?
      = if j < times.length then
          some (Out.dequeued ((q.pending[j]?).bind q.messages.get))
        else none := by
  intro times
  induction times with
  | nil => intro q j; simp [outputs]
  | cons now times ih =>
    intro q j
    simp only [List.map_cons, outputs, step, List.length_cons]
    cases hp : q.pending with
    | nil =>
      rw [DequeueForProcessing_nil q now hp]
      cases j with
      | zero => simp
      | succ j => simp [ih, hp]
    | cons k rest =>
      rw [DequeueForProcessing_cons q now k rest hp]
      cases j with
      | zero => simp
      | succ j => simp [ih]

/-- Enqueues leave `inFlight` alone, are handed ids that are not in flight, and
do not touch the index entries of the ids in flight. -/
theorem run_enqueues (c : Codec) : ∀ (enqs : List Op) (q : Queue),
    (∀ op ∈ enqs, op.isEnqueue = true) → Valid c q enqs →
    (run c q enqs).inFlight = q.inFlight ∧
    (run c q enqs).inFlightTimeout = q.inFlightTimeout ∧
    (∃ added, (run c q enqs).pending = q.pending ++ added) ∧
    (∀ n ∈ created c q enqs, q.inFlight.get n.ID = none) ∧
    (∀ key, q.inFlight.get key ≠ none → (run c q enqs).messages.get key = q.messages.get key) := by
  intro enqs
  induction enqs with
  | nil => intro q _ _; exact ⟨rfl, rfl, ⟨[], by simp [run]⟩, by simp [created], fun _ _ => rfl⟩
  | cons op enqs ih =>
    intro q honly hvalid
    have hop := honly op (List.mem_cons_self _ _)
    cases op with
    | dequeue _ => simp [Op.isEnqueue] at hop
    | ack _ _ _ => simp [Op.isEnqueue] at hop
    | requeue _ _ => simp [Op.isEnqueue] at hop
    | enqueue body msgID io =>
      obtain ⟨hv, hvs⟩ := hvalid
      obtain ⟨i1, i2, ⟨added, i3⟩, i4, i5⟩ := ih (step c q (.enqueue body msgID io)).1
        (fun o ho => honly o (List.mem_cons_of_mem _ ho)) hvs
      have hfresh : q.inFlight.get msgID = none := hv.2.2
      rcases Enqueue_cases c q body msgID io with
        ⟨⟨err, he⟩, h1, h2, h3, h4⟩ | ⟨he, h1, h2, h3, h4, _⟩
      · simp only [step] at i1 i2 i3 i4 i5
        rw [h3] at i1 i4 i5
        rw [h4] at i2
        rw [h2] at i3
        rw [h1] at i5
        refine ⟨i1, i2, ⟨added, i3⟩, ?_, i5⟩
        intro n hn
        simp only [created, step, he, List.nil_append] at hn
        exact i4 n hn
      · simp only [step] at i1 i2 i3 i4 i5
        rw [h3] at i1 i4 i5
        rw [h4] at i2
        rw [h2] at i3
        rw [h1] at i5
        refine ⟨i1, i2, ⟨msgID :: added, by simpa using i3⟩, ?_, ?_⟩
        · intro n hn
          simp only [created, step, he, List.singleton_append, List.mem_cons] at hn
          rcases hn with hn | hn
          · rw [hn]; exact hfresh
          · exact i4 n hn
        · intro key hkey
          have hne : key ≠ msgID := fun heq => hkey (heq ▸ hfresh)
          simp only [run, step]
          rw [i5 key hkey, GoMap.get_set]
          simp [hne]

/-- C8 (priority on requeue): in every state reached from a queue opened on an
empty WAL, if `m` is dispatched at `t`, then messages are enqueued, then
`RequeueOrphaned` runs at `t'` with `t' - t` above the timeout, the sweep places
the id of `m` in a block at the head of `pending` and leaves what was pending
behind it in the same order; and in every subsequent sequence of dequeues, each
dequeue that returns one of the messages enqueued in between comes after a
dequeue that returns `m`. -/
theorem requeued_before_later_enqueues (c : Codec)
    (topic : String) (timeout : Duration) (metrics : Metrics) (ops : List Op)
    (t t' : Time) (m : Message) (enqs : List Op) (order : List (String × Time))
    (times : List Time)
    (hdeq : (DequeueForProcessing (run c (emptyQueue topic timeout metrics) ops) t).2 = some m)
    (honly : ∀ op ∈ enqs, op.isEnqueue = true)
    (hvalid : Valid c (DequeueForProcessing (run c (emptyQueue topic timeout metrics) ops) t).1 enqs)
    (horder : (Op.requeue t' order).valid
      (run c (DequeueForProcessing (run c (emptyQueue topic timeout metrics) ops) t).1 enqs))
    (hexp : t' - t > timeout) :
    (∃ front, m.ID ∈ front ∧
      (RequeueOrphaned
        (run c (DequeueForProcessing (run c (emptyQueue topic timeout metrics) ops) t).1 enqs)
        t' order).pending
      = front ++
        (run c (DequeueForProcessing (run c (emptyQueue topic timeout metrics) ops) t).1
          enqs).pending) ∧
    ∀ n ∈ created c (DequeueForProcessing (run c (emptyQueue topic timeout metrics) ops) t).1 enqs,
      ∀ j : Nat, (outputs c (RequeueOrphaned
          (run c (DequeueForProcessing (run c (emptyQueue topic timeout metrics) ops) t).1 enqs)
          t' order) (times.map Op.dequeue))[j]? = some (Out.dequeued (some n)) →
        ∃ i : Nat, i < j ∧ (outputs c (RequeueOrphaned
          (run c (DequeueForProcessing (run c (emptyQueue topic timeout metrics) ops) t).1 enqs)
          t' order) (times.map Op.dequeue))[i]? = some (Out.dequeued (some m)) := by
  -- the state before the dispatch
  have hk := run_keyInv c ops _ (emptyQueue_keyInv topic timeout metrics)
  have hto : (run c (emptyQueue topic timeout metrics) ops).inFlightTimeout = timeout := by
    have : ∀ (ops : List Op) (q : Queue), (run c q ops).inFlightTimeout = q.inFlightTimeout := by
      intro ops
      induction ops with
      | nil => intro q; rfl
      | cons op ops ih =>
        intro q
        simp only [run]
        rw [ih]
        cases op with
        | enqueue body msgID io =>
          rcases Enqueue_cases c q body msgID io with ⟨_, _, _, _, h⟩ | ⟨_, _, _, _, h, _⟩ <;>
            exact h
        | dequeue now => exact (DequeueForProcessing_messages q now).2.2
        | ack _ _ _ => rfl
        | requeue now order => exact (RequeueOrphaned_frame now order q).2.2.1
    rw [this]; rfl
  generalize run c (emptyQueue topic timeout metrics) ops = q at hdeq hvalid horder hk hto ⊢
  obtain ⟨k, rest, hp, hget, hp1, hin1⟩ := DequeueForProcessing_some q t m hdeq
  have hmid : m.ID = k := hk _ (GoMap.get_some_mem _ _ _ hget)
  have hmsg1 : (DequeueForProcessing q t).1.messages = q.messages :=
    (DequeueForProcessing_messages q t).1
  have hto1 : (DequeueForProcessing q t).1.inFlightTimeout = timeout := by
    rw [(DequeueForProcessing_messages q t).2.2, hto]
  have hk1 : KeyInv (DequeueForProcessing q t).1 := by
    intro e he; rw [hmsg1] at he; exact hk e he
  generalize (DequeueForProcessing q t).1 = q1 at hvalid horder hp1 hin1 hmsg1 hto1 hk1 ⊢
  -- the enqueues
  obtain ⟨e1, e2, _, e4, e5⟩ := run_enqueues c enqs q1 honly hvalid
  have hk2 : KeyInv (run c q1 enqs) := run_keyInv c enqs q1 hk1
  have hkt : q1.inFlight.get k = some t := by rw [hin1, GoMap.get_set]; simp
  have hget2 : (run c q1 enqs).messages.get k = some m := by
    rw [e5 k (by rw [hkt]; simp), hmsg1, hget]
  generalize hq2 : run c q1 enqs = q2 at horder e1 e2 hk2 hget2 ⊢
  -- the sweep
  have hpend := RequeueOrphaned_pending t' order q2
  have hmsg3 : (RequeueOrphaned q2 t' order).messages = q2.messages :=
    (RequeueOrphaned_frame t' order q2).1
  simp only [Op.valid] at horder
  have hfront : ∀ x ∈ ((order.filter (expired q2.inFlightTimeout t')).map Prod.fst).reverse,
      q1.inFlight.get x ≠ none := by
    intro x hx
    simp only [List.mem_reverse, List.mem_map, List.mem_filter] at hx
    obtain ⟨e, ⟨he, _⟩, hxe⟩ := hx
    rw [Ne, GoMap.get_eq_none, not_not, ← e1, ← hxe]
    exact List.mem_map_of_mem _ (horder.mem_iff.1 he)
  have hkfront : k ∈ ((order.filter (expired q2.inFlightTimeout t')).map Prod.fst).reverse := by
    simp only [List.mem_reverse, List.mem_map, List.mem_filter]
    refine ⟨(k, t), ⟨horder.mem_iff.2 ?_, by simp [expired, e2, hto1, hexp]⟩, rfl⟩
    rw [e1, hin1, GoMap.mem_set]; exact Or.inr rfl
  generalize ((order.filter (expired q2.inFlightTimeout t')).map Prod.fst).reverse = front
    at hpend hfront hkfront
  refine ⟨⟨front, hmid ▸ hkfront, hpend⟩, ?_⟩
  intro n hn j hj
  simp only [outputs_dequeues] at hj ⊢
  rw [hmsg3, hpend] at hj ⊢
  split at hj
  · next hjlt =>
    simp only [Option.some.injEq, Out.dequeued.injEq, Option.bind_eq_some] at hj
    obtain ⟨x, hx, hxn⟩ := hj
    have hxid : n.ID = x := hk2 _ (GoMap.get_some_mem _ _ _ hxn)
    have hjge : front.length ≤ j := by
      by_contra hlt
      rw [List.getElem?_append_left (by omega)] at hx
      have hxmem : x ∈ front := List.mem_iff_getElem?.2 ⟨j, hx⟩
      exact hfront x hxmem (hxid ▸ e4 n hn)
    obtain ⟨i, hi⟩ := List.mem_iff_getElem?.1 hkfront
    have hilt : i < front.length := by
      by_contra hge
      rw [List.getElem?_eq_none (by omega)] at hi
      cases hi
    refine ⟨i, by omega, ?_⟩
    rw [if_pos (by omega), List.getElem?_append_left hilt, hi]
    simp [hget2]
  · cases hj

theorem requeued_before_later_enqueues_witness :
    (DequeueForProcessing (run plainCodec (emptyQueue "t" 10 NewMetrics)
      [.enqueue [1] "a" writeOk]) 0).2 = some ⟨"a", [1], 0⟩ ∧
    (∀ op ∈ [Op.enqueue [2] "b" writeOk, Op.enqueue [3] "c" writeOk], op.isEnqueue = true) ∧
    Valid plainCodec (DequeueForProcessing (run plainCodec (emptyQueue "t" 10 NewMetrics)
      [.enqueue [1] "a" writeOk]) 0).1
      [Op.enqueue [2] "b" writeOk, Op.enqueue [3] "c" writeOk] ∧
    (Op.requeue 11 [("a", 0)]).valid
      (run plainCodec (DequeueForProcessing (run plainCodec (emptyQueue "t" 10 NewMetrics)
        [.enqueue [1] "a" writeOk]) 0).1
        [Op.enqueue [2] "b" writeOk, Op.enqueue [3] "c" writeOk]) ∧
    (11 : Time) - 0 > 10 ∧
    ∃ i : Nat, i < 1 ∧ (outputs plainCodec (RequeueOrphaned
      (run plainCodec (DequeueForProcessing (run plainCodec (emptyQueue "t" 10 NewMetrics)
        [.enqueue [1] "a" writeOk]) 0).1
        [Op.enqueue [2] "b" writeOk, Op.enqueue [3] "c" writeOk])
      11 [("a", 0)]) ([12, 13, 14].map Op.dequeue))[i]?
      = some (Out.dequeued (some ⟨"a", [1], 0⟩)) :=
  ⟨by decide, by decide, by decide, by decide, by decide,
   (requeued_before_later_enqueues plainCodec "t" 10 NewMetrics [.enqueue [1] "a" writeOk]
      0 11 ⟨"a", [1], 0⟩ [Op.enqueue [2] "b" writeOk, Op.enqueue [3] "c" writeOk] [("a", 0)]
      [12, 13, 14] (by decide) (by decide) (by decide) (by decide) (by decide)).2
      ⟨"b", [2], 0⟩ (by decide) 1 (by decide)⟩

/-! ## Which files `ReadAll` accepts -/

namespace wal

/-- The read loop passes over complete records at the head of the file. -/
theorem readLoop_append_frames (recs : List (List Byte))
    (h : ∀ r ∈ recs, r.length < 4294967296) :
    ∀ (fuel : Nat) (tail : List Byte) (records : List (List Byte)),
    readLoop (fuel + recs.length) (frames recs ++ tail) records
      = readLoop fuel tail (records ++ recs) := by
  induction recs with
  | nil => intro fuel tail records; simp [frames]
  | cons r rs ih =>
    intro fuel tail records
    have hr : r.length < 4294967296 := h r (List.mem_cons_self _ _)
    rw [frames_cons, List.append_assoc, List.length_cons, ← Nat.add_assoc,
      readLoop_frame _ r _ records hr, ih (fun x hx => h x (List.mem_cons_of_mem _ hx))]
    simp

theorem readLoop_truncated (fuel : Nat) (tail : List Byte) (records : List (List Byte))
    (ht : Truncated tail) : readLoop (fuel + 1) tail records = .error Error.unexpectedEOF := by
  rcases ht with ⟨h0, h4⟩ | ⟨b0, b1, b2, b3, payload, htail, hlen⟩
  · match tail, h0, h4 with
    | [_], _, _ => rfl
    | [_, _], _, _ => rfl
    | [_, _, _], _, _ => rfl
    | _ :: _ :: _ :: _ :: _, _, h4 => simp only [List.length_cons] at h4; omega
    | [], h0, _ => simp at h0
  · subst htail
    simp [readLoop, hlen]

end wal

/-- C12 (`ReadAll` accepts exactly the well-framed files): `ReadAll` returns
`recs` without error exactly when the content is the concatenation of the
records `recs`, each a 4-byte big-endian length followed by that many bytes;
and on content that goes on, after complete records, with one to three bytes of
a length prefix or with a length prefix and fewer payload bytes than it
announces, `ReadAll` returns an error and no records. -/
theorem ReadAll_accepts_exactly_framed (file : List Byte) :
    (∀ recs, wal.ReadAll (.opened file) = .ok recs ↔
      (file = wal.frames recs ∧ ∀ r ∈ recs, r.length < 4294967296)) ∧
    (∀ recs tail, (∀ r ∈ recs, r.length < 4294967296) → file = wal.frames recs ++ tail →
      wal.Truncated tail → wal.ReadAll (.opened file) = .error Error.unexpectedEOF) := by
  refine ⟨fun recs => wal.ReadAll_eq_ok_iff file recs, ?_⟩
  intro recs tail hb hfile ht
  have hl := wal.length_frames recs
  have hlen : file.length = (wal.frames recs).length + tail.length := by
    rw [hfile, List.length_append]
  obtain ⟨f, hf⟩ : ∃ f, file.length / 4 + 1 = (f + 1) + recs.length :=
    ⟨file.length / 4 - recs.length, by omega⟩
  simp only [wal.ReadAll]
  rw [hf]
  conv => lhs; rw [hfile]
  rw [wal.readLoop_append_frames recs hb (f + 1) tail [], wal.readLoop_truncated f tail _ ht]

theorem ReadAll_accepts_exactly_framed_witness :
    (∀ r ∈ ([[7], []] : List (List Byte)), r.length < 4294967296) ∧
    wal.Truncated [0, 0, 0, 2, 9] ∧
    wal.ReadAll (.opened ([0, 0, 0, 1, 7, 0, 0, 0, 0, 0, 0, 0, 2, 9]))
      = .error Error.unexpectedEOF :=
  ⟨by decide, Or.inr ⟨0, 0, 0, 2, [9], rfl, by decide⟩,
   (ReadAll_accepts_exactly_framed [0, 0, 0, 1, 7, 0, 0, 0, 0, 0, 0, 0, 2, 9]).2
     [[7], []] [0, 0, 0, 2, 9] (by decide) (by decide)
     (Or.inr ⟨0, 0, 0, 2, [9], rfl, by decide⟩)⟩

/-! ## What `NewQueue` loads -/

/-- Loading records is loading the messages they decode to: a record that does
not decode leaves no trace. -/
theorem foldl_loadRecord_decoded (c : Codec) : ∀ (recs : List (List Byte)) (q : Queue),
    (recs.foldl (loadRecord c) q).messages
      = (recs.filterMap c.Unmarshal).foldl (fun M m => GoMap.set M m.ID m) q.messages ∧
    (recs.foldl (loadRecord c) q).pending
      = q.pending ++ (recs.filterMap c.Unmarshal).map Message.ID := by
  intro recs
  induction recs with
  | nil => intro q; simp
  | cons r rs ih =>
    intro q
    obtain ⟨h1, h2⟩ := ih (loadRecord c q r)
    simp only [List.foldl_cons]
    rw [h1, h2]
    cases hu : c.Unmarshal r with
    | none => simp [loadRecord, hu, List.filterMap_cons]
    | some m => simp [loadRecord, hu, List.filterMap_cons]

/-- After a run of assignments `M[m.ID] = m`, a key holds the last message
assigned to it. -/
theorem get_foldl_set : ∀ (ms : List Message) (M : GoMap Message) (k : String),
    GoMap.get (ms.foldl (fun M m => GoMap.set M m.ID m) M) k
      = (ms.reverse.find? (fun m => decide (m.ID = k))).orElse (fun _ => GoMap.get M k) := by
  intro ms
  induction ms with
  | nil => intro M k; simp
  | cons m ms ih =>
    intro M k
    simp only [List.foldl_cons, List.reverse_cons, List.find?_append]
    rw [ih, GoMap.get_set]
    cases hf : ms.reverse.find? (fun m => decide (m.ID = k)) with
    | some x => simp
    | none =>
      by_cases hk : m.ID = k
      · simp [List.find?_cons, hk]
      · have hk' : ¬ k = m.ID := fun h => hk h.symm
        simp [List.find?_cons, hk, hk']

/-- C13 (open skips undecodable records and keeps file order), as amended: for
every WAL content that `ReadAll` reads as `recs`, `NewQueue` succeeds; `pending`
is the list of ids of the records that decode, in file order; the index is what
assigning the decoded messages in file order gives, so it maps each such id to
the message decoded from the last record with that id; `inFlight` is empty; and
the records that do not decode play no part in any of it. -/
theorem NewQueue_loads_decodable_records (c : Codec) (topic : String) (timeout : Duration)
    (file : List Byte) (metrics : Metrics) (recs : List (List Byte))
    (hread : wal.ReadAll (.opened file) = .ok recs) :
    ∃ q2, NewQueue c topic timeout (some file) metrics true = .ok q2 ∧
      q2.pending = (recs.filterMap c.Unmarshal).map Message.ID ∧
      q2.messages = (recs.filterMap c.Unmarshal).foldl (fun M m => GoMap.set M m.ID m) [] ∧
      (∀ k, q2.messages.get k
        = (recs.filterMap c.Unmarshal).reverse.find? (fun m => decide (m.ID = k))) ∧
      q2.inFlight = [] := by
  obtain ⟨q2, hq2, hm, hp, hi, _⟩ := NewQueue_of_ReadAll c topic timeout file metrics recs hread
  have h := foldl_loadRecord_decoded c recs
    { topic := topic, messages := [], pending := [], inFlight := [],
      inFlightTimeout := timeout, wal := { file := file, isOpen := true }, metrics := metrics }
  simp only [List.nil_append] at h
  rw [h.1] at hm
  rw [h.2] at hp
  refine ⟨q2, hq2, hp, hm, ?_, hi⟩
  intro k
  rw [hm, get_foldl_set]
  cases (recs.filterMap c.Unmarshal).reverse.find? (fun m => decide (m.ID = k)) <;>
    simp [GoMap.get]

theorem NewQueue_loads_decodable_records_witness :
    wal.ReadAll (.opened [0, 0, 0, 0, 0, 0, 0, 3, 1, 97, 5]) = .ok [[], [1, 97, 5]] ∧
    ∃ q2, NewQueue plainCodec "t" 10 (some [0, 0, 0, 0, 0, 0, 0, 3, 1, 97, 5]) NewMetrics true
        = .ok q2 ∧
      q2.pending = ([[], [1, 97, 5]].filterMap plainCodec.Unmarshal).map Message.ID ∧
      q2.inFlight = [] :=
  ⟨by decide,
   (NewQueue_loads_decodable_records plainCodec "t" 10 [0, 0, 0, 0, 0, 0, 0, 3, 1, 97, 5]
     NewMetrics [[], [1, 97, 5]] (by decide)).imp (fun _ h => ⟨h.1, h.2.1, h.2.2.2.2⟩)⟩

/-- C13, as stated, fails on a file with two records that decode to the same
id: both decode, and the index maps the id to the message of the second record,
not to the message decoded from the first. -/
theorem NewQueue_keeps_last_record_of_an_id :
    wal.ReadAll (.opened [0, 0, 0, 3, 1, 97, 5, 0, 0, 0, 3, 1, 97, 6])
      = .ok [[1, 97, 5], [1, 97, 6]] ∧
    plainCodec.Unmarshal [1, 97, 5] = some ⟨"a", [5], 0⟩ ∧
    plainCodec.Unmarshal [1, 97, 6] = some ⟨"a", [6], 0⟩ ∧
    (NewQueue plainCodec "t" 10 (some [0, 0, 0, 3, 1, 97, 5, 0, 0, 0, 3, 1, 97, 6])
      NewMetrics true).toOption.map (fun q2 => (q2.pending, q2.messages.get "a"))
      = some (["a", "a"], some ⟨"a", [6], 0⟩) := by
  decide

/-! ## The published depth -/

/-- C14 (published depth), as amended: the value stored in the metrics sink
under the queue's topic key equals the length of `pending` right after
`NewQueue`, after an `Enqueue` that returns without error and after
`AckMessage`; `DequeueForProcessing` and `RequeueOrphaned` leave the sink as it
is, so after them the stored value is the one published last. -/
theorem depth_published_on_open_enqueue_ack (c : Codec) (q : Queue) :
    (∀ topic timeout disk metrics q2, NewQueue c topic timeout disk metrics true = .ok q2 →
      q2.metrics.Queues.get q2.topic = some (q2.pending.length : Int)) ∧
    (∀ body msgID io, (Enqueue c q body msgID io).2 = .ok msgID →
      (Enqueue c q body msgID io).1.metrics.Queues.get (Enqueue c q body msgID io).1.topic
        = some ((Enqueue c q body msgID io).1.pending.length : Int)) ∧
    (∀ msgID order io,
      (AckMessage c q msgID order io).metrics.Queues.get (AckMessage c q msgID order io).topic
        = some ((AckMessage c q msgID order io).pending.length : Int)) ∧
    (∀ now, (DequeueForProcessing q now).1.metrics = q.metrics) ∧
    (∀ now order, (RequeueOrphaned q now order).metrics = q.metrics) := by
  refine ⟨?_, ?_, ?_, ?_, ?_⟩
  · intro topic timeout disk metrics q2 h
    simp only [NewQueue, wal.NewWAL, if_true] at h
    cases hl : loadFromWAL c
        { topic := topic, messages := [], pending := [], inFlight := [],
          inFlightTimeout := timeout, wal := { file := disk.getD [], isOpen := true },
          metrics := metrics } with
    | error e => rw [hl] at h; cases h
    | ok q1 =>
      rw [hl] at h
      simp only [Except.ok.injEq] at h
      subst h
      simp [Metrics.SetQueueDepth, GoMap.get_set]
  · intro body msgID io hok
    unfold Enqueue at hok ⊢
    cases hm : c.Marshal { ID := msgID, Body := body, Timestamp := 0 } with
    | none => simp [hm] at hok
    | some data =>
      rcases hw : wal.Write q.wal data io with ⟨w, e⟩
      cases e with
      | some err => simp [hm, hw] at hok
      | none => simp [hm, hw, Metrics.SetQueueDepth, GoMap.get_set]
  · intro msgID order io
    simp [AckMessage, Metrics.SetQueueDepth, GoMap.get_set]
  · intro now
    unfold DequeueForProcessing
    split <;> rfl
  · intro now order
    exact (RequeueOrphaned_frame now order q).2.2.2.2

theorem depth_published_on_open_enqueue_ack_witness :
    (Enqueue plainCodec (emptyQueue "t" 10 NewMetrics) [1] "a" writeOk).2 = .ok "a" ∧
    (Enqueue plainCodec (emptyQueue "t" 10 NewMetrics) [1] "a" writeOk).1.metrics.Queues.get
        (Enqueue plainCodec (emptyQueue "t" 10 NewMetrics) [1] "a" writeOk).1.topic
      = some ((Enqueue plainCodec (emptyQueue "t" 10 NewMetrics) [1] "a"
          writeOk).1.pending.length : Int) :=
  ⟨by decide,
   (depth_published_on_open_enqueue_ack plainCodec (emptyQueue "t" 10 NewMetrics)).2.1
     [1] "a" writeOk (by decide)⟩

/-- C14, as stated, fails after a dequeue: one message is enqueued (depth 1 is
published) and dispatched; `pending` is then empty while the sink still holds
1.  The next `AckMessage` publishes 0. -/
theorem depth_is_stale_after_dequeue :
    (run plainCodec (emptyQueue "t" 10 NewMetrics)
      [.enqueue [1] "a" writeOk, .dequeue 0]).metrics.Queues.get "t" = some 1 ∧
    (run plainCodec (emptyQueue "t" 10 NewMetrics)
      [.enqueue [1] "a" writeOk, .dequeue 0]).pending.length = 0 ∧
    (run plainCodec (emptyQueue "t" 10 NewMetrics)
      [.enqueue [1] "a" writeOk, .dequeue 0, .ack "a" [] rewriteOk]).metrics.Queues.get "t"
      = some 0 := by
  decide

/-! ## The index in reachable states -/

theorem emptyQueue_indexOk (c : Codec) (topic : String) (timeout : Duration) (metrics : Metrics) :
    IndexOk c (emptyQueue topic timeout metrics) := by
  refine ⟨by simp [emptyQueue, GoMap.keys], emptyQueue_keyInv topic timeout metrics, ?_, ?_⟩ <;>
    intro e he <;> simp [emptyQueue] at he

theorem GoMap.nodup_keys_delete {V : Type} (m : GoMap V) (k : String) (h : (GoMap.keys m).Nodup) :
    (GoMap.keys (GoMap.delete m k)).Nodup := by
  simp only [GoMap.keys, GoMap.delete] at h ⊢
  exact ((List.filter_sublist _).map _).nodup h

theorem step_indexOk (c : Codec) (q : Queue) (op : Op) (hv : op.valid q) (hf : op.fits c)
    (h : IndexOk c q) : IndexOk c (step c q op).1 := by
  obtain ⟨hnd, hk, hts, henc⟩ := h
  cases op with
  | dequeue now =>
    have h1 := (DequeueForProcessing_messages q now).1
    simp only [step]
    refine ⟨by rw [h1]; exact hnd, ?_, ?_, ?_⟩ <;> intro e he <;> rw [h1] at he
    · exact hk e he
    · exact hts e he
    · exact henc e he
  | requeue now order =>
    have h1 := (RequeueOrphaned_frame now order q).1
    simp only [step]
    refine ⟨by rw [h1]; exact hnd, ?_, ?_, ?_⟩ <;> intro e he <;> rw [h1] at he
    · exact hk e he
    · exact hts e he
    · exact henc e he
  | ack msgID order io =>
    simp only [step, AckMessage]
    refine ⟨GoMap.nodup_keys_delete _ _ hnd, ?_, ?_, ?_⟩ <;> intro e he <;>
      have he' := ((GoMap.mem_delete _ _ _).1 he).1
    · exact hk e he'
    · exact hts e he'
    · exact henc e he'
  | enqueue body msgID io =>
    simp only [Op.fits] at hf
    simp only [step]
    rcases Enqueue_cases c q body msgID io with ⟨_, h1, _⟩ | ⟨_, h1, _, _, _, data, hd, _, _⟩
    · refine ⟨by rw [h1]; exact hnd, ?_, ?_, ?_⟩ <;> intro e he <;> rw [h1] at he
      · exact hk e he
      · exact hts e he
      · exact henc e he
    · have hset : q.messages.set msgID { ID := msgID, Body := body, Timestamp := 0 }
          = q.messages ++ [(msgID, { ID := msgID, Body := body, Timestamp := 0 })] := by
        simp only [GoMap.set, GoMap.delete_of_get_none _ _ hv.1]
      refine ⟨?_, ?_, ?_, ?_⟩
      · rw [h1, hset]
        simp only [GoMap.keys, List.map_append, List.map_cons, List.map_nil]
        have hnot := (GoMap.get_eq_none _ _).1 hv.1
        simp only [GoMap.keys] at hnot hnd
        exact List.Nodup.append hnd (List.nodup_singleton _) (by simpa using hnot)
      · intro e he
        rw [h1, hset] at he
        rcases List.mem_append.1 he with he | he
        · exact hk e he
        · simp at he; rw [he]
      · intro e he
        rw [h1, hset] at he
        rcases List.mem_append.1 he with he | he
        · exact hts e he
        · simp at he; rw [he]
      · intro e he
        rw [h1, hset] at he
        rcases List.mem_append.1 he with he | he
        · exact henc e he
        · simp at he; rw [he]; exact ⟨data, hd, hf data hd⟩

theorem run_indexOk (c : Codec) : ∀ (ops : List Op) (q : Queue), Valid c q ops →
    (∀ op ∈ ops, op.fits c) → IndexOk c q → IndexOk c (run c q ops) := by
  intro ops
  induction ops with
  | nil => intro q _ _ h; exact h
  | cons op ops ih =>
    intro q hv hf h
    exact ih _ hv.2 (fun o ho => hf o (List.mem_cons_of_mem _ ho))
      (step_indexOk c q op hv.1 (hf op (List.mem_cons_self _ _)) h)

/-- After an `AckMessage` whose rewrite returns no error and has no failing
write, reopening gives the entries that the rewrite visited, in the order it
visited them. -/
theorem reopen_after_ack (c : Codec) (hc : c.RoundTrip) (q : Queue) (h : IndexOk c q)
    (msgID : String) (order : List (String × Message)) (io : wal.RewriteIO)
    (horder : (Op.ack msgID order io).valid q)
    (hw : ∀ o ∈ io.writes, o = (none, none))
    (hok : (wal.Rewrite q.wal (remainingRecords c order) io).2 = none)
    (topic : String) (timeout : Duration) (metrics : Metrics) :
    ∃ q2, NewQueue c topic timeout (some (AckMessage c q msgID order io).wal.file) metrics true
        = .ok q2 ∧
      q2.messages = order ∧ q2.pending = order.map Prod.fst ∧ q2.inFlight = [] := by
  obtain ⟨hnd, hk, hts, henc⟩ := h
  simp only [Op.valid] at horder
  have hsub : ∀ e ∈ order, e ∈ q.messages := fun e he =>
    ((GoMap.mem_delete _ _ _).1 (horder.mem_iff.1 he)).1
  obtain ⟨L, h1, h2, h3⟩ := exists_encoded c order (fun e he => henc e (hsub e he))
  have hfile : (AckMessage c q msgID order io).wal.file = wal.frames (L.map Prod.snd) := by
    simp only [AckMessage, wal.Rewrite_ok _ _ _ hw hok, h2]
  have hread : wal.ReadAll (.opened (AckMessage c q msgID order io).wal.file)
      = .ok (L.map Prod.snd) := by
    rw [hfile]
    apply wal.ReadAll_frames
    intro r hr
    obtain ⟨p, hp, hpe⟩ := List.mem_map.1 hr
    rw [← hpe]
    exact (h3 p hp).2
  obtain ⟨q2, hq2, hm, hp, hi, _⟩ := NewQueue_of_ReadAll c topic timeout _ metrics _ hread
  have hids : L.map (fun p => p.1.ID) = order.map Prod.fst := by
    have : L.map (fun p => p.1.ID) = (L.map Prod.fst).map Message.ID := by
      rw [List.map_map]; rfl
    rw [this, h1, List.map_map]
    apply List.map_congr_left
    intro e he
    exact hk e (hsub e he)
  have hordnd : (order.map Prod.fst).Nodup := by
    have := (horder.map Prod.fst).nodup_iff.2 (GoMap.nodup_keys_delete _ msgID hnd)
    exact this
  have hLts : ∀ p ∈ L, p.1.Timestamp = 0 := by
    intro p hp
    have : p.1 ∈ order.map Prod.snd := by rw [← h1]; exact List.mem_map_of_mem _ hp
    obtain ⟨e, he, hee⟩ := List.mem_map.1 this
    rw [← hee]
    exact hts e (hsub e he)
  obtain ⟨f1, f2⟩ := foldl_loadRecord_encoded c hc L
    { topic := topic, messages := [], pending := [], inFlight := [],
      inFlightTimeout := timeout,
      wal := { file := (AckMessage c q msgID order io).wal.file, isOpen := true },
      metrics := metrics }
    (fun p hp => (h3 p hp).1) hLts
    (by simpa [GoMap.keys, hids] using hordnd)
  simp only [List.nil_append] at f1 f2
  rw [f1] at hm
  rw [f2, hids] at hp
  refine ⟨q2, hq2, ?_, hp, hi⟩
  rw [hm]
  have : L.map (fun p => (p.1.ID, p.1)) = (L.map Prod.fst).map (fun m => (m.ID, m)) := by
    rw [List.map_map]; rfl
  rw [this, h1, List.map_map]
  conv => rhs; rw [← List.map_id order]
  apply List.map_congr_left
  intro e he
  simp only [Function.comp, id_eq, hk e (hsub e he)]

/-- C15 (ack of an unknown id is a no-op in memory): in every state reached
from a queue opened on an empty WAL, `AckMessage(msgID)` for an id that is
neither in the index nor in `inFlight` leaves `messages`, `pending` and
`inFlight` as they were; and when its rewrite returns no error and has no
failing write, `NewQueue` on the resulting file loads exactly the entries of the
index. -/
theorem ack_of_unknown_id_is_noop (c : Codec) (hc : c.RoundTrip)
    (topic : String) (timeout : Duration) (metrics : Metrics) (ops : List Op)
    (hvalid : Valid c (emptyQueue topic timeout metrics) ops)
    (hfits : ∀ op ∈ ops, op.fits c)
    (msgID : String) (order : List (String × Message)) (io : wal.RewriteIO)
    (hidx : (run c (emptyQueue topic timeout metrics) ops).messages.get msgID = none)
    (hfl : (run c (emptyQueue topic timeout metrics) ops).inFlight.get msgID = none)
    (horder : (Op.ack msgID order io).valid (run c (emptyQueue topic timeout metrics) ops))
    (topic2 : String) (timeout2 : Duration) (metrics2 : Metrics) :
    (AckMessage c (run c (emptyQueue topic timeout metrics) ops) msgID order io).messages
      = (run c (emptyQueue topic timeout metrics) ops).messages ∧
    (AckMessage c (run c (emptyQueue topic timeout metrics) ops) msgID order io).pending
      = (run c (emptyQueue topic timeout metrics) ops).pending ∧
    (AckMessage c (run c (emptyQueue topic timeout metrics) ops) msgID order io).inFlight
      = (run c (emptyQueue topic timeout metrics) ops).inFlight ∧
    ((∀ o ∈ io.writes, o = (none, none)) →
      (wal.Rewrite (run c (emptyQueue topic timeout metrics) ops).wal
        (remainingRecords c order) io).2 = none →
      ∃ q2, NewQueue c topic2 timeout2
          (some (AckMessage c (run c (emptyQueue topic timeout metrics) ops)
            msgID order io).wal.file) metrics2 true = .ok q2 ∧
        q2.messages.Perm (run c (emptyQueue topic timeout metrics) ops).messages ∧
        ∀ k, q2.messages.get k = (run c (emptyQueue topic timeout metrics) ops).messages.get k) := by
  have hix := run_indexOk c ops _ hvalid hfits (emptyQueue_indexOk c topic timeout metrics)
  generalize run c (emptyQueue topic timeout metrics) ops = q at hidx hfl horder hix ⊢
  have hdel : q.messages.delete msgID = q.messages := GoMap.delete_of_get_none _ _ hidx
  refine ⟨by simp [AckMessage, hdel], rfl,
    by simp [AckMessage, GoMap.delete_of_get_none _ _ hfl], ?_⟩
  intro hw hok
  obtain ⟨q2, hq2, hm, _, _⟩ := reopen_after_ack c hc q hix msgID order io horder hw hok
    topic2 timeout2 metrics2
  have hperm : order.Perm q.messages := by
    have := horder
    simp only [Op.valid, hdel] at this
    exact this
  refine ⟨q2, hq2, by rw [hm]; exact hperm, fun k => ?_⟩
  rw [hm]
  exact GoMap.get_perm _ _
    (by have := (hperm.map Prod.fst).nodup_iff.2 hix.1; exact this) hix.1 hperm k

theorem ack_of_unknown_id_is_noop_witness :
    Valid plainCodec (emptyQueue "t" 10 NewMetrics) [.enqueue [1] "a" writeOk, .dequeue 0] ∧
    (∀ op ∈ [Op.enqueue [1] "a" writeOk, Op.dequeue 0], op.fits plainCodec) ∧
    (run plainCodec (emptyQueue "t" 10 NewMetrics)
      [.enqueue [1] "a" writeOk, .dequeue 0]).messages.get "z" = none ∧
    (run plainCodec (emptyQueue "t" 10 NewMetrics)
      [.enqueue [1] "a" writeOk, .dequeue 0]).inFlight.get "z" = none ∧
    (Op.ack "z" [("a", ⟨"a", [1], 0⟩)] rewriteOk).valid
      (run plainCodec (emptyQueue "t" 10 NewMetrics) [.enqueue [1] "a" writeOk, .dequeue 0]) ∧
    (AckMessage plainCodec
      (run plainCodec (emptyQueue "t" 10 NewMetrics) [.enqueue [1] "a" writeOk, .dequeue 0])
      "z" [("a", ⟨"a", [1], 0⟩)] rewriteOk).inFlight
      = (run plainCodec (emptyQueue "t" 10 NewMetrics)
          [.enqueue [1] "a" writeOk, .dequeue 0]).inFlight :=
  ⟨by decide, by decide, by decide, by decide, by decide,
   (ack_of_unknown_id_is_noop plainCodec plainCodec_roundTrip "t" 10 NewMetrics
     [.enqueue [1] "a" writeOk, .dequeue 0] (by decide) (by decide) "z"
     [("a", ⟨"a", [1], 0⟩)] rewriteOk (by decide) (by decide) (by decide)
     "t" 10 NewMetrics).2.2.1⟩

/-! ## Order after compaction and restart -/

/-- What a reopen after a compaction yields, for every encoding and every
iteration order: after an `AckMessage` whose rewrite returns no error and has
no failing write, `NewQueue` on the resulting file gives a queue whose
`pending` lists the remaining ids in the order in which the rewrite visited the
index map, and whose dequeues return the remaining messages in that order,
whatever the order of `pending` was before. -/
theorem reopen_order_is_iteration_order (c : Codec) (hc : c.RoundTrip)
    (topic : String) (timeout : Duration) (metrics : Metrics) (ops : List Op)
    (hvalid : Valid c (emptyQueue topic timeout metrics) ops)
    (hfits : ∀ op ∈ ops, op.fits c)
    (msgID : String) (order : List (String × Message)) (io : wal.RewriteIO)
    (horder : (Op.ack msgID order io).valid (run c (emptyQueue topic timeout metrics) ops))
    (hw : ∀ o ∈ io.writes, o = (none, none))
    (hok : (wal.Rewrite (run c (emptyQueue topic timeout metrics) ops).wal
      (remainingRecords c order) io).2 = none)
    (topic2 : String) (timeout2 : Duration) (metrics2 : Metrics) :
    ∃ q2, NewQueue c topic2 timeout2
        (some (AckMessage c (run c (emptyQueue topic timeout metrics) ops) msgID order io).wal.file)
        metrics2 true = .ok q2 ∧
      q2.pending = order.map Prod.fst ∧
      ∀ (times : List Time) (j : Nat), j < times.length →
        (outputs c q2 (times.map Op.dequeue))[j]?
          = some (Out.dequeued (order[j]?.map Prod.snd)) := by
  have hix := run_indexOk c ops _ hvalid hfits (emptyQueue_indexOk c topic timeout metrics)
  obtain ⟨q2, hq2, hm, hp, _⟩ := reopen_after_ack c hc _ hix msgID order io horder hw hok
    topic2 timeout2 metrics2
  refine ⟨q2, hq2, hp, ?_⟩
  intro times j hj
  rw [outputs_dequeues, if_pos hj, hp, hm, List.getElem?_map]
  have hnd : (GoMap.keys order).Nodup := by
    have h := horder
    simp only [Op.valid] at h
    exact (h.map Prod.fst).nodup_iff.2 (GoMap.nodup_keys_delete _ msgID hix.1)
  cases hj2 : order[j]? with
  | none => simp
  | some e =>
    have hmem : e ∈ order := List.mem_iff_getElem?.2 ⟨j, hj2⟩
    have hget : GoMap.get order e.1 = some e.2 :=
      (GoMap.get_eq_some_iff order hnd e.1 e.2).2 hmem
    simp [hget]

theorem reopen_order_is_iteration_order_example :
    Valid plainCodec (emptyQueue "t" 10 NewMetrics)
      [.enqueue [0] "x" writeOk, .enqueue [1] "a" writeOk, .enqueue [2] "b" writeOk,
       .dequeue 0] ∧
    (∀ op ∈ [Op.enqueue [0] "x" writeOk, .enqueue [1] "a" writeOk, .enqueue [2] "b" writeOk,
       .dequeue 0], op.fits plainCodec) ∧
    (Op.ack "x" [("a", ⟨"a", [1], 0⟩), ("b", ⟨"b", [2], 0⟩)] rewriteOk).valid
      (run plainCodec (emptyQueue "t" 10 NewMetrics)
        [.enqueue [0] "x" writeOk, .enqueue [1] "a" writeOk, .enqueue [2] "b" writeOk,
         .dequeue 0]) ∧
    (∀ o ∈ rewriteOk.writes, o = (none, none)) ∧
    (wal.Rewrite (run plainCodec (emptyQueue "t" 10 NewMetrics)
        [.enqueue [0] "x" writeOk, .enqueue [1] "a" writeOk, .enqueue [2] "b" writeOk,
         .dequeue 0]).wal
      (remainingRecords plainCodec [("a", ⟨"a", [1], 0⟩), ("b", ⟨"b", [2], 0⟩)])
      rewriteOk).2 = none ∧
    ∃ q2, NewQueue plainCodec "t" 10
        (some (AckMessage plainCodec (run plainCodec (emptyQueue "t" 10 NewMetrics)
          [.enqueue [0] "x" writeOk, .enqueue [1] "a" writeOk, .enqueue [2] "b" writeOk,
           .dequeue 0]) "x" [("a", ⟨"a", [1], 0⟩), ("b", ⟨"b", [2], 0⟩)] rewriteOk).wal.file)
        NewMetrics true = .ok q2 ∧
      q2.pending = ["a", "b"] :=
  ⟨by decide, by decide, by decide, by decide, by decide,
   (reopen_order_is_iteration_order plainCodec plainCodec_roundTrip "t" 10 NewMetrics
     [.enqueue [0] "x" writeOk, .enqueue [1] "a" writeOk, .enqueue [2] "b" writeOk, .dequeue 0]
     (by decide) (by decide) "x" [("a", ⟨"a", [1], 0⟩), ("b", ⟨"b", [2], 0⟩)] rewriteOk
     (by decide) (by decide) (by decide) "t" 10 NewMetrics).imp (fun _ h => ⟨h.1, h.2.1⟩)⟩

/-- C11 (FIFO survives compaction and restart), evaluated on an iteration
order that visits B first: `x`, `a` and `b` are enqueued in that order, `x` is
dispatched and acked, and the `range` over the index in `AckMessage` visits `b`
before `a`.  In memory `pending` is still `a`, `b`; after the reopen the first
dequeue returns `b` and the second returns `a`. -/
theorem reopen_after_ack_can_swap_order :
    Successful plainCodec (emptyQueue "t" 10 NewMetrics)
      [.enqueue [0] "x" writeOk, .enqueue [1] "a" writeOk, .enqueue [2] "b" writeOk,
       .dequeue 0, .ack "x" [("b", ⟨"b", [2], 0⟩), ("a", ⟨"a", [1], 0⟩)] rewriteOk] ∧
    (run plainCodec (emptyQueue "t" 10 NewMetrics)
      [.enqueue [0] "x" writeOk, .enqueue [1] "a" writeOk, .enqueue [2] "b" writeOk,
       .dequeue 0, .ack "x" [("b", ⟨"b", [2], 0⟩), ("a", ⟨"a", [1], 0⟩)] rewriteOk]).pending
      = ["a", "b"] ∧
    (NewQueue plainCodec "t" 10
      (some (run plainCodec (emptyQueue "t" 10 NewMetrics)
        [.enqueue [0] "x" writeOk, .enqueue [1] "a" writeOk, .enqueue [2] "b" writeOk,
         .dequeue 0,
         .ack "x" [("b", ⟨"b", [2], 0⟩), ("a", ⟨"a", [1], 0⟩)] rewriteOk]).wal.file)
      NewMetrics true).toOption.map (fun q2 => outputs plainCodec q2 [.dequeue 1, .dequeue 2])
      = some [.dequeued (some ⟨"b", [2], 0⟩), .dequeued (some ⟨"a", [1], 0⟩)] := by
  decide

/-! ## What the sweep does to `inFlight` -/

theorem GoMap.eq_of_mem_of_key_eq {V : Type} (m : GoMap V) (hnd : (GoMap.keys m).Nodup)
    (e e' : String × V) (he : e ∈ m) (he' : e' ∈ m) (hk : e.1 = e'.1) : e = e' := by
  have h1 := (GoMap.get_eq_some_iff m hnd e.1 e.2).2 he
  have h2 := (GoMap.get_eq_some_iff m hnd e'.1 e'.2).2 he'
  rw [hk, h2] at h1
  simp only [Option.some.injEq] at h1
  exact Prod.ext hk h1.symm

/-- The sweep deletes from `inFlight` the keys of the expired entries it visits. -/
theorem RequeueOrphaned_inFlight (now : Time) (order : List (String × Time)) : ∀ (q : Queue),
    (RequeueOrphaned q now order).inFlight
      = q.inFlight.filter (fun e =>
          decide (e.1 ∉ (order.filter (expired q.inFlightTimeout now)).map Prod.fst)) := by
  induction order with
  | nil => intro q; simp [RequeueOrphaned]
  | cons e es ih =>
    intro q
    have h := ih (requeueEntry now q e)
    simp only [RequeueOrphaned, List.foldl_cons] at h ⊢
    rw [h, (requeueEntry_frame now q e).2.2.1]
    by_cases hexp : now - e.2 > q.inFlightTimeout
    · have hE : expired q.inFlightTimeout now e = true := by simp [expired, hexp]
      rw [List.filter_cons_of_pos hE]
      simp only [requeueEntry, hexp, if_true, GoMap.delete, List.filter_filter]
      apply List.filter_congr
      intro x _
      by_cases h1 : x.1 = e.1 <;>
        by_cases h2 : x.1 ∈ (es.filter (expired q.inFlightTimeout now)).map Prod.fst <;>
        simp [h1, h2]
    · have hE : ¬ expired q.inFlightTimeout now e = true := by simp [expired, hexp]
      rw [List.filter_cons_of_neg hE]
      simp [requeueEntry, hexp]

/-- C17 (no premature redelivery): for every queue state and every sweep time,
`RequeueOrphaned` leaves in `inFlight` exactly the entries with
`now - ts ≤ inFlightTimeout`, each with its id and timestamp, puts at the head
of `pending` exactly the ids of the entries with `now - ts > inFlightTimeout`,
keeps what was pending behind them, and leaves the index unchanged. -/
theorem requeue_moves_exactly_expired (q : Queue) (now : Time) (order : List (String × Time))
    (horder : (Op.requeue now order).valid q) (hnd : q.inFlight.keys.Nodup) :
    (RequeueOrphaned q now order).inFlight
      = q.inFlight.filter (fun e => decide (now - e.2 ≤ q.inFlightTimeout)) ∧
    (∃ front, (RequeueOrphaned q now order).pending = front ++ q.pending ∧
      front.Perm ((q.inFlight.filter
        (fun e => decide (now - e.2 > q.inFlightTimeout))).map Prod.fst) ∧
      ∀ e ∈ q.inFlight, now - e.2 ≤ q.inFlightTimeout →
        e ∈ (RequeueOrphaned q now order).inFlight ∧ e.1 ∉ front) ∧
    (RequeueOrphaned q now order).messages = q.messages := by
  simp only [Op.valid] at horder
  have hkeys : ∀ e ∈ q.inFlight,
      (e.1 ∈ (order.filter (expired q.inFlightTimeout now)).map Prod.fst
        ↔ now - e.2 > q.inFlightTimeout) := by
    intro e he
    constructor
    · intro hk
      obtain ⟨e', he', hee⟩ := List.mem_map.1 hk
      obtain ⟨hm', hexp'⟩ := List.mem_filter.1 he'
      have : e' = e :=
        GoMap.eq_of_mem_of_key_eq _ hnd e' e (horder.mem_iff.1 hm') he hee
      rw [this] at hexp'
      simpa [expired] using hexp'
    · intro hexp
      exact List.mem_map.2 ⟨e, List.mem_filter.2 ⟨horder.mem_iff.2 he, by simp [expired, hexp]⟩, rfl⟩
  have hin : (RequeueOrphaned q now order).inFlight
      = q.inFlight.filter (fun e => decide (now - e.2 ≤ q.inFlightTimeout)) := by
    rw [RequeueOrphaned_inFlight]
    apply List.filter_congr
    intro e he
    have := hkeys e he
    by_cases hexp : now - e.2 > q.inFlightTimeout
    · simp only [this.2 hexp, not_true_eq_false, decide_False]
      exact (decide_eq_false (not_le.2 hexp)).symm
    · have hno : e.1 ∉ (order.filter (expired q.inFlightTimeout now)).map Prod.fst :=
        fun h => hexp (this.1 h)
      simp only [hno, not_false_eq_true, decide_True]
      simp [not_lt.1 hexp]
  refine ⟨hin, ⟨_, RequeueOrphaned_pending now order q, ?_, ?_⟩, (RequeueOrphaned_frame now order q).1⟩
  · refine (List.reverse_perm _).trans ?_
    apply List.Perm.map
    have := horder.filter (expired q.inFlightTimeout now)
    simpa [expired] using this
  · intro e he hle
    refine ⟨?_, ?_⟩
    · rw [hin]; exact List.mem_filter.2 ⟨he, by simp [hle]⟩
    · intro hfront
      rw [List.mem_reverse] at hfront
      have := (hkeys e he).1 hfront
      exact absurd hle (not_le.2 this)

theorem requeue_moves_exactly_expired_witness :
    (Op.requeue 12 [("b", 5), ("a", 0)]).valid
      (run plainCodec (emptyQueue "t" 10 NewMetrics)
        [.enqueue [1] "a" writeOk, .enqueue [2] "b" writeOk, .dequeue 0, .dequeue 5]) ∧
    (run plainCodec (emptyQueue "t" 10 NewMetrics)
      [.enqueue [1] "a" writeOk, .enqueue [2] "b" writeOk, .dequeue 0,
       .dequeue 5]).inFlight.keys.Nodup ∧
    (RequeueOrphaned
      (run plainCodec (emptyQueue "t" 10 NewMetrics)
        [.enqueue [1] "a" writeOk, .enqueue [2] "b" writeOk, .dequeue 0, .dequeue 5])
      12 [("b", 5), ("a", 0)]).messages
      = (run plainCodec (emptyQueue "t" 10 NewMetrics)
        [.enqueue [1] "a" writeOk, .enqueue [2] "b" writeOk, .dequeue 0, .dequeue 5]).messages :=
  ⟨by decide, by decide,
   (requeue_moves_exactly_expired
     (run plainCodec (emptyQueue "t" 10 NewMetrics)
       [.enqueue [1] "a" writeOk, .enqueue [2] "b" writeOk, .dequeue 0, .dequeue 5])
     12 [("b", 5), ("a", 0)] (by decide) (by decide)).2.2⟩

/-- C18 (invariant 5), as amended: for every queue state, every entry
`(k, ts)` of `inFlight` and every instant `now`, either
`now - ts ≤ inFlightTimeout`, or `RequeueOrphaned` run at `now` moves `k` from
`inFlight` to `pending`. -/
theorem inflight_within_timeout_or_requeued (q : Queue) (now : Time)
    (order : List (String × Time)) (k : String) (ts : Time)
    (hmem : (k, ts) ∈ q.inFlight) (horder : (Op.requeue now order).valid q) :
    now - ts ≤ q.inFlightTimeout ∨
    (k ∈ (RequeueOrphaned q now order).pending ∧
      (RequeueOrphaned q now order).inFlight.get k = none) := by
  simp only [Op.valid] at horder
  by_cases hexp : now - ts > q.inFlightTimeout
  · right
    have hk : k ∈ (order.filter (expired q.inFlightTimeout now)).map Prod.fst :=
      List.mem_map.2 ⟨(k, ts),
        List.mem_filter.2 ⟨horder.mem_iff.2 hmem, by simp [expired, hexp]⟩, rfl⟩
    constructor
    · rw [RequeueOrphaned_pending]
      exact List.mem_append_left _ (List.mem_reverse.2 hk)
    · rw [GoMap.get_eq_none, RequeueOrphaned_inFlight]
      intro hkey
      obtain ⟨e, he, hek⟩ := List.mem_map.1 hkey
      have := (List.mem_filter.1 he).2
      simp only [decide_eq_true_eq] at this
      exact this (hek ▸ hk)
  · left; exact not_lt.1 hexp

theorem inflight_within_timeout_or_requeued_witness :
    (("a", 0) : String × Time) ∈ (run plainCodec (emptyQueue "t" 10 NewMetrics)
      [.enqueue [1] "a" writeOk, .dequeue 0]).inFlight ∧
    (Op.requeue 11 [("a", 0)]).valid (run plainCodec (emptyQueue "t" 10 NewMetrics)
      [.enqueue [1] "a" writeOk, .dequeue 0]) ∧
    ((11 : Time) - 0 ≤ (run plainCodec (emptyQueue "t" 10 NewMetrics)
        [.enqueue [1] "a" writeOk, .dequeue 0]).inFlightTimeout ∨
      ("a" ∈ (RequeueOrphaned (run plainCodec (emptyQueue "t" 10 NewMetrics)
          [.enqueue [1] "a" writeOk, .dequeue 0]) 11 [("a", 0)]).pending ∧
        (RequeueOrphaned (run plainCodec (emptyQueue "t" 10 NewMetrics)
          [.enqueue [1] "a" writeOk, .dequeue 0]) 11 [("a", 0)]).inFlight.get "a" = none)) :=
  ⟨by decide, by decide,
   inflight_within_timeout_or_requeued
     (run plainCodec (emptyQueue "t" 10 NewMetrics) [.enqueue [1] "a" writeOk, .dequeue 0])
     11 [("a", 0)] "a" 0 (by decide) (by decide)⟩

/-- C18, as stated, fails at the boundary: an entry dispatched at 0 with
timeout 10 has `now - ts = 10` at `now = 10`, which is not below the timeout,
and `RequeueOrphaned` run at 10 leaves it in `inFlight` and out of `pending`. -/
theorem inflight_at_timeout_is_not_requeued :
    (("a", 0) : String × Time) ∈ (run plainCodec (emptyQueue "t" 10 NewMetrics)
      [.enqueue [1] "a" writeOk, .dequeue 0]).inFlight ∧
    (10 : Time) ≥ 0 ∧
    ¬ ((10 : Time) - 0 < (run plainCodec (emptyQueue "t" 10 NewMetrics)
      [.enqueue [1] "a" writeOk, .dequeue 0]).inFlightTimeout) ∧
    (Op.requeue 10 [("a", 0)]).valid (run plainCodec (emptyQueue "t" 10 NewMetrics)
      [.enqueue [1] "a" writeOk, .dequeue 0]) ∧
    (RequeueOrphaned (run plainCodec (emptyQueue "t" 10 NewMetrics)
      [.enqueue [1] "a" writeOk, .dequeue 0]) 10 [("a", 0)]).inFlight = [("a", 0)] ∧
    (RequeueOrphaned (run plainCodec (emptyQueue "t" 10 NewMetrics)
      [.enqueue [1] "a" writeOk, .dequeue 0]) 10 [("a", 0)]).pending = [] := by
  decide

/-! ## Failing writes inside `Rewrite` -/

/-- C19 (`Rewrite` reports write failures), evaluated on a rewrite of two
records in which the write of the first length prefix fails: `Rewrite` returns
no error, the file holds only the second record, and `ReadAll` returns one
record instead of the two supplied. -/
theorem rewrite_swallows_failed_write :
    (wal.Rewrite ⟨[9], true⟩ [[1], [2]] ⟨true, true, true, [(some 0, none)], true⟩).2 = none ∧
    (wal.Rewrite ⟨[9], true⟩ [[1], [2]] ⟨true, true, true, [(some 0, none)], true⟩).1.file
      = [0, 0, 0, 1, 2] ∧
    wal.ReadAll (.opened
      (wal.Rewrite ⟨[9], true⟩ [[1], [2]] ⟨true, true, true, [(some 0, none)], true⟩).1.file)
      = .ok [[2]] := by
  decide

/-! ## Invariant 1 -/

namespace GoMap

variable {V : Type}

theorem mem_keys_delete (m : GoMap V) (k x : String) :
    x ∈ keys (delete m k) ↔ x ∈ keys m ∧ x ≠ k := by
  simp only [keys, List.mem_map, mem_delete]
  constructor
  · rintro ⟨e, ⟨he, hne⟩, rfl⟩
    exact ⟨⟨e, he, rfl⟩, hne⟩
  · rintro ⟨⟨e, he, rfl⟩, hne⟩
    exact ⟨e, ⟨he, hne⟩, rfl⟩

theorem mem_keys_set (m : GoMap V) (k x : String) (v : V) :
    x ∈ keys (set m k v) ↔ (x ∈ keys m ∧ x ≠ k) ∨ x = k := by
  have h := mem_keys_delete m k x
  simp only [keys] at h
  simp only [set, keys, List.map_append, List.mem_append, h, List.map_cons, List.map_nil,
    List.mem_singleton]

theorem nodup_keys_set (m : GoMap V) (k : String) (v : V) (h : (keys m).Nodup) :
    (keys (set m k v)).Nodup := by
  have h1 := nodup_keys_delete m k h
  have h2 : k ∉ keys (delete m k) := fun hk => ((mem_keys_delete m k k).1 hk).2 rfl
  simp only [keys] at h1 h2
  simp only [set, keys, List.map_append, List.map_cons, List.map_nil]
  exact List.Nodup.append h1 (List.nodup_singleton _) (by simpa using h2)

end GoMap

theorem emptyQueue_partitioned (topic : String) (timeout : Duration) (metrics : Metrics) :
    Partitioned (emptyQueue topic timeout metrics) := by
  simp [Partitioned, Invariant1, emptyQueue, GoMap.keys]

theorem step_partitioned (c : Codec) (q : Queue) (op : Op) (hv : op.valid q)
    (ha : op.ackInFlightOrUnknown q) (h : Partitioned q) : Partitioned (step c q op).1 := by
  obtain ⟨hp, hfl, hu, hd⟩ := h
  cases op with
  | enqueue body msgID io =>
    simp only [step]
    rcases Enqueue_cases c q body msgID io with ⟨_, h1, h2, h3, _⟩ | ⟨_, h1, h2, h3, _⟩
    · simp only [Partitioned, Invariant1, h1, h2, h3]
      exact ⟨hp, hfl, hu, hd⟩
    · obtain ⟨_, hfp, hff⟩ := hv
      have hff' : msgID ∉ q.inFlight.keys := (GoMap.get_eq_none _ _).1 hff
      simp only [Partitioned, Invariant1, h1, h2, h3]
      refine ⟨?_, hfl, ?_, ?_⟩
      · exact List.Nodup.append hp (List.nodup_singleton _) (by simpa using hfp)
      · intro k
        rw [GoMap.mem_keys_set, List.mem_append, List.mem_singleton, hu k]
        by_cases hk : k = msgID
        · simp [hk]
        · simp [hk]
      · intro k ⟨hk1, hk2⟩
        rcases List.mem_append.1 hk1 with hk1 | hk1
        · exact hd k ⟨hk1, hk2⟩
        · simp only [List.mem_singleton] at hk1
          exact hff' (hk1 ▸ hk2)
  | dequeue now =>
    simp only [step]
    cases hpe : q.pending with
    | nil =>
      rw [DequeueForProcessing_nil q now hpe]
      exact ⟨hp, hfl, hu, hd⟩
    | cons k0 rest =>
      rw [DequeueForProcessing_cons q now k0 rest hpe]
      rw [hpe] at hp
      have hk0 : k0 ∉ rest := (List.nodup_cons.1 hp).1
      simp only [Partitioned, Invariant1]
      refine ⟨(List.nodup_cons.1 hp).2, GoMap.nodup_keys_set _ _ _ hfl, ?_, ?_⟩
      · intro k
        rw [GoMap.mem_keys_set, hu k, hpe, List.mem_cons]
        by_cases hk : k = k0
        · simp [hk]
        · simp [hk]
      · intro k ⟨hk1, hk2⟩
        rw [GoMap.mem_keys_set] at hk2
        rcases hk2 with ⟨hk2, _⟩ | hk2
        · exact hd k ⟨by rw [hpe]; exact List.mem_cons_of_mem _ hk1, hk2⟩
        · exact hk0 (hk2 ▸ hk1)
  | ack msgID order io =>
    simp only [step, AckMessage, Partitioned, Invariant1]
    have hnp : msgID ∉ q.pending := by
      rcases ha with ha | ha
      · exact fun hmem => hd msgID ⟨hmem, ha⟩
      · exact ha.2.1
    refine ⟨hp, GoMap.nodup_keys_delete _ _ hfl, ?_, ?_⟩
    · intro k
      rw [GoMap.mem_keys_delete, GoMap.mem_keys_delete, hu k]
      constructor
      · rintro ⟨h1 | h1, hne⟩
        · exact Or.inl h1
        · exact Or.inr ⟨h1, hne⟩
      · rintro (h1 | ⟨h1, hne⟩)
        · exact ⟨Or.inl h1, fun heq => hnp (heq ▸ h1)⟩
        · exact ⟨Or.inr h1, hne⟩
    · intro k ⟨hk1, hk2⟩
      exact hd k ⟨hk1, ((GoMap.mem_keys_delete _ _ _).1 hk2).1⟩
  | requeue now order =>
    simp only [Op.valid] at hv
    simp only [step, Partitioned, Invariant1, RequeueOrphaned_pending,
      RequeueOrphaned_inFlight, (RequeueOrphaned_frame now order q).1]
    -- the ids that the sweep moves
    have hks_sub : ∀ x ∈ (order.filter (expired q.inFlightTimeout now)).map Prod.fst,
        x ∈ q.inFlight.keys := by
      intro x hx
      obtain ⟨e, he, hex⟩ := List.mem_map.1 hx
      exact List.mem_map.2 ⟨e, hv.mem_iff.1 (List.mem_filter.1 he).1, hex⟩
    have hks_nd : ((order.filter (expired q.inFlightTimeout now)).map Prod.fst).Nodup := by
      have h1 : (order.map Prod.fst).Nodup := (hv.map Prod.fst).nodup_iff.2 hfl
      exact ((List.filter_sublist _).map _).nodup h1
    have hkeys : ∀ x, x ∈ GoMap.keys (q.inFlight.filter (fun e =>
          decide (e.1 ∉ (order.filter (expired q.inFlightTimeout now)).map Prod.fst)))
        ↔ x ∈ q.inFlight.keys ∧
          x ∉ (order.filter (expired q.inFlightTimeout now)).map Prod.fst := by
      intro x
      simp only [GoMap.keys, List.mem_map, List.mem_filter, decide_eq_true_eq]
      constructor
      · rintro ⟨e, ⟨he, hne⟩, rfl⟩
        exact ⟨⟨e, he, rfl⟩, hne⟩
      · rintro ⟨⟨e, he, rfl⟩, hne⟩
        exact ⟨e, ⟨he, hne⟩, rfl⟩
    generalize (order.filter (expired q.inFlightTimeout now)).map Prod.fst = ks
      at hks_sub hks_nd hkeys
    refine ⟨?_, ?_, ?_, ?_⟩
    · refine List.Nodup.append (List.nodup_reverse.2 hks_nd) hp ?_
      intro x hx1 hx2
      exact hd x ⟨hx2, hks_sub x (List.mem_reverse.1 hx1)⟩
    · simp only [GoMap.keys] at hfl ⊢
      exact ((List.filter_sublist _).map _).nodup hfl
    · intro k
      rw [hkeys, List.mem_append, List.mem_reverse, hu k]
      by_cases hk : k ∈ ks
      · simp [hk, hks_sub k hk]
      · simp [hk]
    · intro k ⟨hk1, hk2⟩
      rw [hkeys] at hk2
      rcases List.mem_append.1 hk1 with hk1 | hk1
      · exact hk2.2 (List.mem_reverse.1 hk1)
      · exact hd k ⟨hk1, hk2.1⟩

theorem run_partitioned (c : Codec) : ∀ (ops : List Op) (q : Queue), WellBehaved c q ops →
    Partitioned q → Partitioned (run c q ops) := by
  intro ops
  induction ops with
  | nil => intro q _ h; exact h
  | cons op ops ih =>
    intro q hw h
    exact ih _ hw.2 (step_partitioned c q op hw.1.1 hw.1.2 h)

/-- C20 (invariant 1 under well-behaved acks): from a queue opened on an empty
WAL, after any sequence of calls in which every `Enqueue` is handed a fresh id
and every `AckMessage` targets an id that is in flight or unknown to the queue,
`pending` has no duplicates, no id is both in `pending` and in `inFlight`, the
keys of `messages` are the ids of `pending` and of `inFlight` together, and
`DequeueForProcessing` returns nil only when `pending` is empty. -/
theorem invariant1_under_wellbehaved_acks (c : Codec)
    (topic : String) (timeout : Duration) (metrics : Metrics) (ops : List Op)
    (h : WellBehaved c (emptyQueue topic timeout metrics) ops) :
    (run c (emptyQueue topic timeout metrics) ops).pending.Nodup ∧
    (∀ k, ¬ (k ∈ (run c (emptyQueue topic timeout metrics) ops).pending ∧
      k ∈ (run c (emptyQueue topic timeout metrics) ops).inFlight.keys)) ∧
    (∀ k, k ∈ (run c (emptyQueue topic timeout metrics) ops).messages.keys ↔
      (k ∈ (run c (emptyQueue topic timeout metrics) ops).pending ∨
        k ∈ (run c (emptyQueue topic timeout metrics) ops).inFlight.keys)) ∧
    (∀ now, (DequeueForProcessing (run c (emptyQueue topic timeout metrics) ops) now).2 = none →
      (run c (emptyQueue topic timeout metrics) ops).pending = []) := by
  obtain ⟨hp, _, hu, hd⟩ := run_partitioned c ops _ h (emptyQueue_partitioned topic timeout metrics)
  refine ⟨hp, hd, hu, ?_⟩
  intro now hnone
  cases hpe : (run c (emptyQueue topic timeout metrics) ops).pending with
  | nil => rfl
  | cons k rest =>
    rw [DequeueForProcessing_cons _ now k rest hpe] at hnone
    simp only at hnone
    have hk : k ∈ (run c (emptyQueue topic timeout metrics) ops).messages.keys :=
      (hu k).2 (Or.inl (by rw [hpe]; exact List.mem_cons_self _ _))
    exact absurd ((GoMap.get_eq_none _ _).1 hnone) (not_not.2 hk)

theorem invariant1_under_wellbehaved_acks_witness :
    WellBehaved plainCodec (emptyQueue "t" 10 NewMetrics)
      [.enqueue [1] "a" writeOk, .enqueue [2] "b" writeOk, .dequeue 0,
       .ack "a" [("b", ⟨"b", [2], 0⟩)] rewriteOk, .dequeue 3, .requeue 20 [("b", 3)],
       .ack "zz" [("b", ⟨"b", [2], 0⟩)] rewriteOk] ∧
    (run plainCodec (emptyQueue "t" 10 NewMetrics)
      [.enqueue [1] "a" writeOk, .enqueue [2] "b" writeOk, .dequeue 0,
       .ack "a" [("b", ⟨"b", [2], 0⟩)] rewriteOk, .dequeue 3, .requeue 20 [("b", 3)],
       .ack "zz" [("b", ⟨"b", [2], 0⟩)] rewriteOk]).pending.Nodup :=
  ⟨by decide,
   (invariant1_under_wellbehaved_acks plainCodec "t" 10 NewMetrics
     [.enqueue [1] "a" writeOk, .enqueue [2] "b" writeOk, .dequeue 0,
      .ack "a" [("b", ⟨"b", [2], 0⟩)] rewriteOk, .dequeue 3, .requeue 20 [("b", 3)],
      .ack "zz" [("b", ⟨"b", [2], 0⟩)] rewriteOk] (by decide)).1⟩

end MessageQueue
